import Mathlib

/-! gopower: the sampling watcher, its circular buffer and the windowed mean

A shallow embedding of `watcher.go` and of the one-shot reads of `power.go`.

Modelling conventions
* `time.Time` is an integer count of nanoseconds on one time line whose origin is
  the zero value `time.Time{}` (wall clock and monotonic reading are taken to
  agree); `time.Duration` is an integer of nanoseconds, and `Time.Sub` saturates at
  the bounds of `int64` as in the Go library.
* `time.Now()` is a parameter `now` of the function that calls it.
* `Ampere`, `Volt` and `Watt` (all `float64`) are one carrier type `α`, of which the
  code only uses `0`, `+`, `/` and the conversion from `int`.
* A Go run-time panic is the `Except.error` result.
* A Go `error` is its message; a function that returns `(value, error)` returns the
  pair, with `none` for the nil error.
* The file system, the heap and the clock are parameters: `openFile` for
  `os.OpenFile`, `mem` for the room of the heap, and a `Sensors` record for
  `ioutil.ReadFile`, `strings.TrimSpace` and `strconv.ParseFloat`.
* The lock and the goroutine are not modelled: every function is one atomic step.
-/

namespace Gopower

/-- The ways a modelled call can fail to return. -/
inductive Fault where
  /-- the Go "index out of range" run-time panic. -/
  | indexOutOfRange
  /-- The explicit `panic("buffer is too small")` of `NewWatcher`. -/
  | bufferTooSmall
  /-- The panic of `must(err)` on a non-nil error. -/
  | must
  /-- the Go "integer divide by zero" run-time panic. -/
  | divideByZero
  /-- the Go "makeslice: len out of range" run-time panic. -/
  | makeslice
  /-- The fatal error "out of memory" of the Go runtime. -/
  | outOfMemory
  /-- The iteration budget of the model ran out (never the case for `Mean`). -/
  | fuel
deriving DecidableEq

/-- The smallest `time.Duration`, `math.MinInt64` nanoseconds. -/
def minDuration : Int := -(2 ^ 63)

/-- The largest `time.Duration`, `math.MaxInt64` nanoseconds. -/
def maxDuration : Int := 2 ^ 63 - 1

/-- The zero value `time.Time{}`, the `Instant` of a slot that was never written. -/
def zeroTime : Int := 0

/-- The library function `t.Sub(u)`: the duration `t - u`, replaced by the largest
(smallest) duration when it does not fit. -/
def Sub (t u : Int) : Int :=
  if t - u > maxDuration then maxDuration
  else if t - u < minDuration then minDuration
  else t - u

/-- The struct `Sample` of `power.go`. -/
structure Sample (α : Type) where
  Instant : Int
  Current : α
  Voltage : α
  Power : α
deriving DecidableEq

/-- The zero value `Sample{}`. -/
def Sample.zero {α : Type} [Zero α] : Sample α :=
  { Instant := zeroTime, Current := 0, Voltage := 0, Power := 0 }

/-- The struct `Result`: an embedded `Sample` with `TimeFrame` and `NuSamples`. -/
structure Result (α : Type) extends Sample α where
  TimeFrame : Int
  NuSamples : Nat
deriving DecidableEq

/-- The zero value `Result{}`. -/
def Result.zero {α : Type} [Zero α] : Result α :=
  { toSample := Sample.zero, TimeFrame := 0, NuSamples := 0 }

/-- What the field `log io.Writer` can hold when it is not the nil interface: a nil
`*os.File` wrapped in the interface, or an open file with the records appended to
it so far (a record is kept as the sample it was formatted from). -/
inductive Writer (α : Type) where
  | nilFile
  | file (name : String) (records : List (Sample α))
deriving DecidableEq

/-- The struct `Watcher`, without its mutex. `log = none` is the nil interface. The
slice `samples` is made with equal length and capacity and is never resliced, so
`cap(w.samples)` is `samples.length`. -/
structure Watcher (α : Type) where
  log : Option (Writer α)
  interval : Int
  samples : List (Sample α)
  index : Int
  length : Int
deriving DecidableEq

/-- The read `samples[i]`: `none` is the index-out-of-range panic. -/
def slot {α : Type} (samples : List (Sample α)) (i : Int) : Option (Sample α) :=
  if i < 0 then none else samples[i.toNat]?

/-- The struct literal of `NewWatcher` (lines 53-58): `bufferSize` zero-valued
slots, `index` 0 and `length` left at its zero value. -/
def freshWatcher {α : Type} [Zero α] (log : Option (Writer α)) (interval : Int)
    (bufferSize : Nat) : Watcher α :=
  { log := log
    interval := interval
    index := 0
    samples := List.replicate bufferSize Sample.zero
    length := 0 }

/-- The effect of `fmt.Fprintf(w.log, ...)` on the sink: an open file gets one more
record, a nil `*os.File` rejects the write and the error is dropped. -/
def Writer.fprintf {α : Type} (sink : Writer α) (sample : Sample α) : Writer α :=
  match sink with
  | Writer.nilFile => Writer.nilFile
  | Writer.file name records => Writer.file name (records ++ [sample])

/-- The method `addSample` (lines 122-140). -/
def addSample {α : Type} (w : Watcher α) (sample : Sample α) :
    Except Fault (Watcher α) :=
  -- w.samples[w.index] = sample
  if w.index < 0 ∨ (w.samples.length : Int) ≤ w.index then
    Except.error Fault.indexOutOfRange
  else
    let samples := w.samples.set w.index.toNat sample
    -- if w.log != nil { fmt.Fprintf(w.log, ...) }
    let log := w.log.map (fun sink => sink.fprintf sample)
    -- w.index++ ; if w.index > cap(w.samples) { w.index = 0 }
    let index := w.index + 1
    let index := if index > (samples.length : Int) then 0 else index
    Except.ok { w with samples := samples, log := log, index := index }

/-- A run of `addSample` calls, one per element of `l`, stopping at the first
panic. -/
def pushAll {α : Type} (w : Watcher α) (l : List (Sample α)) :
    Except Fault (Watcher α) :=
  match l with
  | [] => Except.ok w
  | s :: rest =>
    match addSample w s with
    | Except.error e => Except.error e
    | Except.ok w' => pushAll w' rest

/-- The local variables of the loop of `Mean`, with the list of slots read so far
(`reads` is not a program variable: it records each `w.samples[i]` evaluated). -/
structure Walk (α : Type) where
  sumA : α
  sumV : α
  sumW : α
  lastSample : Int
  nu : Nat
  i : Int
  reads : List Int
deriving DecidableEq

/-- The `for` loop of `Mean` (lines 79-97); `fuel` bounds the number of iterations
of the model. -/
def meanLoop {α : Type} [Add α] (samples : List (Sample α)) (duration start : Int) :
    Nat → Walk α → Except Fault (Walk α)
  | 0, _ => Except.error Fault.fuel
  | fuel + 1, st =>
    -- sample := w.samples[i]
    match slot samples st.i with
    | none => Except.error Fault.indexOutOfRange
    | some sample =>
      let st := { st with reads := st.reads ++ [st.i] }
      if Sub start sample.Instant > duration then Except.ok st
      else if st.nu ≥ samples.length then Except.ok st
      else
        meanLoop samples duration start fuel
          { st with
            lastSample := sample.Instant
            sumA := st.sumA + sample.Current
            sumV := st.sumV + sample.Voltage
            sumW := st.sumW + sample.Power
            nu := st.nu + 1
            i := (if st.i = 0 then (samples.length : Int) else st.i) - 1 }

/-- What a call of `Mean` did besides returning: the slots it read, in order, and
the divisor of each division it evaluated. -/
structure Trace where
  reads : List Int
  divs : List Nat
deriving DecidableEq

/-- The method `Mean` (lines 64-109) with its trace. `now` is the value `time.Now()`
takes for the `Instant` of the result. -/
def MeanT {α : Type} [Zero α] [Add α] [Div α] [NatCast α] (w : Watcher α)
    (now duration : Int) : Except Fault (Result α × Trace) :=
  let i := w.index - 1
  if i < 0 then Except.ok (Result.zero, { reads := [], divs := [] })
  else
    -- start := w.samples[i].Instant
    match slot w.samples i with
    | none => Except.error Fault.indexOutOfRange
    | some first =>
      let start := first.Instant
      match meanLoop w.samples duration start (w.samples.length + 1)
          { sumA := 0, sumV := 0, sumW := 0, lastSample := zeroTime, nu := 0, i := i,
            reads := [i] } with
      | Except.error e => Except.error e
      | Except.ok st =>
        Except.ok
          ({ Instant := now
             Current := st.sumA / (st.nu : α)
             Voltage := st.sumV / (st.nu : α)
             Power := st.sumW / (st.nu : α)
             TimeFrame := Sub start st.lastSample
             NuSamples := st.nu },
           { reads := st.reads, divs := [st.nu, st.nu, st.nu] })

/-- The method `Mean`: the `Result` it returns. -/
def Mean {α : Type} [Zero α] [Add α] [Div α] [NatCast α] (w : Watcher α)
    (now duration : Int) : Except Fault (Result α) :=
  match MeanT w now duration with
  | Except.error e => Except.error e
  | Except.ok (r, _) => Except.ok r

/-! ## Closed forms used to state what `Mean` returns -/

/-- One fold of the loop body of `Mean` (lines 87-96) on the sample just read. -/
def Walk.fold {α : Type} [Add α] (st : Walk α) (cap : Nat) (x : Sample α) : Walk α :=
  { sumA := st.sumA + x.Current
    sumV := st.sumV + x.Voltage
    sumW := st.sumW + x.Power
    lastSample := x.Instant
    nu := st.nu + 1
    i := (if st.i = 0 then (cap : Int) else st.i) - 1
    reads := st.reads ++ [st.i] }

/-- The folds of the loop body of `Mean` over the samples `a`, in visiting order. -/
def Walk.foldAll {α : Type} [Add α] (st : Walk α) (cap : Nat) (a : List (Sample α)) :
    Walk α :=
  a.foldl (fun st x => st.fold cap x) st

/-- Whether a sample lies in the window of length `d` that ends at `newest`:
`newest.Sub(s.Instant) <= d`. -/
def inWindow {α : Type} (newest d : Int) (s : Sample α) : Bool :=
  decide (Sub newest s.Instant ≤ d)

/-- The pushed samples `l` that lie in the window, newest first. -/
def window {α : Type} (l : List (Sample α)) (newest d : Int) : List (Sample α) :=
  l.reverse.filter (inWindow newest d)

/-- The arithmetic mean as the code computes it: the values are added to 0 from
left to right and the sum is divided by their number. -/
def mean {α : Type} [Zero α] [Add α] [Div α] [NatCast α] (xs : List α) : α :=
  xs.foldl (fun s c => s + c) 0 / (xs.length : α)

/-! ## The scenario of the specification -/

/-- The sample of second `j` in the scenario of the specification: current `j` µA, a
constant 1 000 000 µV and hence power `j` µW. -/
def tick (j : Nat) : Sample ℚ :=
  { Instant := (j : Int) * 1000000000, Current := j, Voltage := 1000000, Power := j }

/-- Ten samples one second apart with currents 1 to 10. -/
def scenario : List (Sample ℚ) :=
  [tick 1, tick 2, tick 3, tick 4, tick 5, tick 6, tick 7, tick 8, tick 9, tick 10]

/-! ## Construction: `NewWatcher` -/

/-- The quotient `x / y` of two `time.Duration` values for `y` other than 0: it
truncates toward zero, and the one quotient that does not fit, `MinInt64 / -1`,
wraps to `MinInt64`. -/
def divDuration (x y : Int) : Int :=
  if x = minDuration ∧ y = -1 then minDuration else Int.tdiv x y

/-- The size of a `Sample` in bytes on a 64-bit platform: 24 for the `time.Time` and
8 for each of the three `float64`. -/
def sampleSize : Nat := 48

/-- The constant `maxAlloc` of the Go runtime on 64-bit Linux, in bytes. -/
def maxAlloc : Nat := 2 ^ 48

/-- The allocation `make([]Sample, n, n)`: the runtime panics with "makeslice: len
out of range" when the `n` samples take more than `maxAlloc` bytes, and stops with
"out of memory" when the heap has no room for them (`mem bytes` tells whether it
has); otherwise the slice holds `n` zero-valued samples. -/
def makeSamples {α : Type} [Zero α] (mem : Nat → Bool) (n : Nat) :
    Except Fault (List (Sample α)) :=
  if sampleSize * n > maxAlloc then Except.error Fault.makeslice
  else if mem (sampleSize * n) then Except.ok (List.replicate n Sample.zero)
  else Except.error Fault.outOfMemory

/-- The part of `NewWatcher` after the log file is settled (lines 49-60): `log` is
what the `*os.File` variable holds when it is stored in the `io.Writer` field. The
goroutine started on line 59 is not modelled. -/
def newWatcherBuffer {α : Type} [Zero α] (mem : Nat → Bool) (log : Writer α)
    (interval maxTime : Int) : Except Fault (Watcher α) :=
  -- bufferSize := maxTime / interval
  if interval = 0 then Except.error Fault.divideByZero
  else
    let bufferSize := divDuration maxTime interval
    if bufferSize < 2 then Except.error Fault.bufferTooSmall
    else
      -- samples: make([]Sample, bufferSize, bufferSize)
      match (makeSamples mem bufferSize.toNat : Except Fault (List (Sample α))) with
      | Except.error e => Except.error e
      | Except.ok samples =>
        Except.ok
          { log := some log
            interval := interval
            index := 0
            samples := samples
            length := 0 }

/-- The function `NewWatcher` (lines 41-61) with the list of the names it passed to
`os.OpenFile`. `openFile name` tells whether `os.OpenFile(name, O_APPEND|O_WRONLY|
O_CREATE, 0666)` returns a file (`true`) or an error (`false`), and `mem` is the
room of the heap as in `makeSamples`. -/
def NewWatcherT {α : Type} [Zero α] (openFile : String → Bool) (mem : Nat → Bool)
    (logfile : String) (interval maxTime : Int) :
    Except Fault (Watcher α) × List String :=
  -- var log *os.File
  if logfile = "" then
    -- log, err = os.OpenFile(logfile, ...) ; must(err)
    if openFile logfile then
      (newWatcherBuffer mem (Writer.file logfile []) interval maxTime, [logfile])
    else (Except.error Fault.must, [logfile])
  else (newWatcherBuffer mem Writer.nilFile interval maxTime, [])

/-- The function `NewWatcher`: the Watcher it returns, or the panic. -/
def NewWatcher {α : Type} [Zero α] (openFile : String → Bool) (mem : Nat → Bool)
    (logfile : String) (interval maxTime : Int) : Except Fault (Watcher α) :=
  (NewWatcherT openFile mem logfile interval maxTime).1

/-! ## One-shot reads: `power.go` -/

/-- The outside world of the sensor reads: `ioutil.ReadFile` (contents or error
message), `strings.TrimSpace`, `strconv.ParseFloat(s, 64)` and the value that
`time.Now()` takes in `GetNow`. -/
structure Sensors (α : Type) where
  readFile : String → Except String String
  trimSpace : String → String
  parseFloat : String → Except String α
  now : Int

/-- The function `readNumber` (lines 46-57): the value and the error, as Go returns
them (`none` is the nil error). -/
def readNumber {α : Type} [Zero α] (env : Sensors α) (filepath : String) :
    α × Option String :=
  match env.readFile filepath with
  | Except.error err => (0, some err)
  | Except.ok data =>
    let strData := env.trimSpace data
    match env.parseFloat strData with
    | Except.error err => (0, some err)
    | Except.ok value => (value, none)

/-- The source of `GetCurrentNow`. -/
def currentPath : String := "/sys/class/power_supply/BAT0/current_now"

/-- The source of `GetVoltageNow`. -/
def voltagePath : String := "/sys/class/power_supply/BAT0/voltage_now"

/-- The function `GetCurrentNow` (lines 61-67). -/
def GetCurrentNow {α : Type} [Zero α] (env : Sensors α) : α × Option String :=
  match readNumber env currentPath with
  | (_, some err) => (0, some err)
  | (value, none) => (value, none)

/-- The function `GetVoltageNow` (lines 71-77). -/
def GetVoltageNow {α : Type} [Zero α] (env : Sensors α) : α × Option String :=
  match readNumber env voltagePath with
  | (_, some err) => (0, some err)
  | (value, none) => (value, none)

/-- The function `GetNow` (lines 81-98) with the list of the sources it read, in
order. The constant `1e6` is the conversion of the integer 1000000. -/
def GetNowT {α : Type} [Zero α] [Mul α] [Div α] [NatCast α] (env : Sensors α) :
    (Sample α × Option String) × List String :=
  match GetCurrentNow env with
  | (_, some err) => ((Sample.zero, some err), [currentPath])
  | (amperes, none) =>
    match GetVoltageNow env with
    | (_, some err) => ((Sample.zero, some err), [currentPath, voltagePath])
    | (volts, none) =>
      let watts := amperes * volts / ((1000000 : Nat) : α)
      (({ Instant := env.now, Current := amperes, Voltage := volts, Power := watts },
        none), [currentPath, voltagePath])

/-- The function `GetNow`: the sample and the error. -/
def GetNow {α : Type} [Zero α] [Mul α] [Div α] [NatCast α] (env : Sensors α) :
    Sample α × Option String :=
  (GetNowT env).1

/-- The function `GetPowerNow` (lines 102-108). -/
def GetPowerNow {α : Type} [Zero α] [Mul α] [Div α] [NatCast α] (env : Sensors α) :
    α × Option String :=
  match GetNow env with
  | (_, some err) => (0, some err)
  | (sample, none) => (sample.Power, none)

/-! ## `Mean` as a step on the Watcher, and the walk with the lap check -/

/-- The `for` loop of `Mean` (lines 79-97) as a step on the machine state: the
Watcher that the receiver points to is threaded through every iteration next to
the locals, and comes out as the iterations leave it. -/
def meanLoopM {α : Type} [Add α] (duration start : Int) :
    Nat → Watcher α → Walk α → Except Fault (Walk α) × Watcher α
  | 0, w, _ => (Except.error Fault.fuel, w)
  | fuel + 1, w, st =>
    -- sample := w.samples[i]
    match slot w.samples st.i with
    | none => (Except.error Fault.indexOutOfRange, w)
    | some sample =>
      let st := { st with reads := st.reads ++ [st.i] }
      if Sub start sample.Instant > duration then (Except.ok st, w)
      else if st.nu ≥ w.samples.length then (Except.ok st, w)
      else
        meanLoopM duration start fuel w
          { st with
            lastSample := sample.Instant
            sumA := st.sumA + sample.Current
            sumV := st.sumV + sample.Voltage
            sumW := st.sumW + sample.Power
            nu := st.nu + 1
            i := (if st.i = 0 then (w.samples.length : Int) else st.i) - 1 }

/-- The method `Mean` (lines 64-109) as a step on the machine state: what the call
returns, and the Watcher as the statements of the body leave it. -/
def MeanM {α : Type} [Zero α] [Add α] [Div α] [NatCast α] (w : Watcher α)
    (now duration : Int) : Except Fault (Result α × Trace) × Watcher α :=
  let i := w.index - 1
  if i < 0 then (Except.ok (Result.zero, { reads := [], divs := [] }), w)
  else
    -- start := w.samples[i].Instant
    match slot w.samples i with
    | none => (Except.error Fault.indexOutOfRange, w)
    | some first =>
      let start := first.Instant
      match meanLoopM duration start (w.samples.length + 1) w
          { sumA := 0, sumV := 0, sumW := 0, lastSample := zeroTime, nu := 0, i := i,
            reads := [i] } with
      | (Except.error e, w1) => (Except.error e, w1)
      | (Except.ok st, w1) =>
        (Except.ok
          ({ Instant := now
             Current := st.sumA / (st.nu : α)
             Voltage := st.sumV / (st.nu : α)
             Power := st.sumW / (st.nu : α)
             TimeFrame := Sub start st.lastSample
             NuSamples := st.nu },
           { reads := st.reads, divs := [st.nu, st.nu, st.nu] }), w1)

/-- The walk as the specification words it (sections 4.3 and 4.5), to be compared
with the loop of `Mean`, from which it differs in one test only. Instead of
`nu >= cap(w.samples)` it stops "when it reaches the starting point again (full
lap)": a sample has been folded and `i` is back at `origin`, the slot the walk
started at. -/
def meanLoopLap {α : Type} [Add α] (samples : List (Sample α)) (duration start : Int)
    (origin : Int) : Nat → Walk α → Except Fault (Walk α)
  | 0, _ => Except.error Fault.fuel
  | fuel + 1, st =>
    match slot samples st.i with
    | none => Except.error Fault.indexOutOfRange
    | some sample =>
      let st := { st with reads := st.reads ++ [st.i] }
      if Sub start sample.Instant > duration then Except.ok st
      else if 0 < st.nu ∧ st.i = origin then Except.ok st
      else
        meanLoopLap samples duration start origin fuel
          { st with
            lastSample := sample.Instant
            sumA := st.sumA + sample.Current
            sumV := st.sumV + sample.Voltage
            sumW := st.sumW + sample.Power
            nu := st.nu + 1
            i := (if st.i = 0 then (samples.length : Int) else st.i) - 1 }

/-- The method `Mean` with its walk bounded by the lap check of `meanLoopLap`,
everything else as in `MeanT`. -/
def MeanLapT {α : Type} [Zero α] [Add α] [Div α] [NatCast α] (w : Watcher α)
    (now duration : Int) : Except Fault (Result α × Trace) :=
  let i := w.index - 1
  if i < 0 then Except.ok (Result.zero, { reads := [], divs := [] })
  else
    match slot w.samples i with
    | none => Except.error Fault.indexOutOfRange
    | some first =>
      let start := first.Instant
      match meanLoopLap w.samples duration start i (w.samples.length + 1)
          { sumA := 0, sumV := 0, sumW := 0, lastSample := zeroTime, nu := 0, i := i,
            reads := [i] } with
      | Except.error e => Except.error e
      | Except.ok st =>
        Except.ok
          ({ Instant := now
             Current := st.sumA / (st.nu : α)
             Voltage := st.sumV / (st.nu : α)
             Power := st.sumW / (st.nu : α)
             TimeFrame := Sub start st.lastSample
             NuSamples := st.nu },
           { reads := st.reads, divs := [st.nu, st.nu, st.nu] })

/-! ## Worlds and states for the examples -/

/-- A world for the one-shot reads: the current source holds 1500000, the voltage
source 12000000, and no other file can be read. -/
def demoSensors : Sensors ℚ :=
  { readFile := fun path =>
      if path = currentPath then Except.ok "1500000"
      else if path = voltagePath then Except.ok "12000000"
      else Except.error "no such file or directory"
    trimSpace := fun s => s
    parseFloat := fun s =>
      if s = "1500000" then Except.ok 1500000
      else if s = "12000000" then Except.ok 12000000
      else Except.error "invalid syntax"
    now := 63929347200000000000 }

/-- The world of `demoSensors` with the current source unreadable. -/
def brokenSensors : Sensors ℚ :=
  { demoSensors with
    readFile := fun path =>
      if path = voltagePath then Except.ok "12000000"
      else Except.error "no such file or directory" }

/-- A sample as the sampling loop stamps it: `j` seconds after 2026-11-04 00:00 UTC,
which is 63929347200 s after the zero `time.Time`. -/
def reading (j : Nat) : Sample ℚ :=
  { Instant := 63929347200000000000 + (j : Int) * 1000000000, Current := j,
    Voltage := 1000000, Power := j }

/-- A Watcher state with arbitrary slot contents: capacity 3, cursor 3, timestamps out
of order. -/
def shuffled : Watcher ℚ :=
  { log := none, interval := 1000000000, samples := [tick 9, tick 2, tick 7],
    index := 3, length := 0 }

/-! ## The write path: `addSample` and runs of pushes -/

theorem slot_natCast {α : Type} (samples : List (Sample α)) (j : Nat) :
    slot samples (j : Int) = samples[j]? := by
  simp [slot]

theorem addSample_at {α : Type} (w : Watcher α) (pre post : List (Sample α))
    (x s : Sample α) (hs : w.samples = pre ++ x :: post) (hi : w.index = pre.length) :
    ∃ w', addSample w s = Except.ok w' ∧ w'.samples = pre ++ s :: post ∧
      w'.index = (pre.length : Int) + 1 ∧ w'.interval = w.interval ∧
      w'.length = w.length := by
  have hc : ¬ (w.index < 0 ∨ (w.samples.length : Int) ≤ w.index) := by
    rw [hs, hi]
    simp
  have hset : w.samples.set w.index.toNat s = pre ++ s :: post := by
    rw [hs, hi]
    simp
  have hidx : ¬ (w.index + 1 > ((w.samples.set w.index.toNat s).length : Int)) := by
    rw [hset, hi]
    simp
  refine ⟨{ w with samples := pre ++ s :: post, log := w.log.map (fun sink => sink.fprintf s), index := (pre.length : Int) + 1 }, ?_, rfl, rfl, rfl, rfl⟩
  unfold addSample
  rw [if_neg hc]
  rw [hset, hi] at hidx
  simp only [hset]
  rw [hi, if_neg hidx]

theorem addSample_full {α : Type} (w : Watcher α) (s : Sample α)
    (hi : w.index = w.samples.length) :
    addSample w s = Except.error Fault.indexOutOfRange := by
  unfold addSample
  rw [if_pos]
  right
  omega

theorem pushAll_at {α : Type} (l : List (Sample α)) :
    ∀ (w : Watcher α) (pre post : List (Sample α)), w.samples = pre ++ post →
      w.index = pre.length → l.length ≤ post.length →
      ∃ w', pushAll w l = Except.ok w' ∧ w'.samples = pre ++ l ++ post.drop l.length ∧
        w'.index = (pre.length : Int) + l.length ∧ w'.interval = w.interval ∧
        w'.length = w.length := by
  induction l with
  | nil =>
    intro w pre post hs hi _
    exact ⟨w, rfl, by simpa using hs, by simpa using hi, rfl, rfl⟩
  | cons s rest ih =>
    intro w pre post hs hi hlen
    cases post with
    | nil => simp at hlen
    | cons x post =>
      obtain ⟨w1, h1, hs1, hi1, hint1, hlen1⟩ := addSample_at w pre post x s hs hi
      have hlen' : rest.length ≤ post.length := by simpa using hlen
      obtain ⟨w2, h2, hs2, hi2, hint2, hlen2⟩ :=
        ih w1 (pre ++ [s]) post (by simpa using hs1) (by simpa using hi1) hlen'
      refine ⟨w2, ?_, ?_, ?_, ?_, ?_⟩
      · simp only [pushAll, h1, h2]
      · simpa using hs2
      · rw [hi2]; simp; omega
      · rw [hint2, hint1]
      · rw [hlen2, hlen1]

theorem pushAll_overflow {α : Type} (l : List (Sample α)) :
    ∀ (w : Watcher α) (pre post : List (Sample α)), w.samples = pre ++ post →
      w.index = pre.length → post.length < l.length →
      pushAll w l = Except.error Fault.indexOutOfRange := by
  induction l with
  | nil => intro w pre post _ _ hlen; simp at hlen
  | cons s rest ih =>
    intro w pre post hs hi hlen
    cases post with
    | nil =>
      have : addSample w s = Except.error Fault.indexOutOfRange :=
        addSample_full w s (by rw [hi, hs]; simp)
      simp only [pushAll, this]
    | cons x post =>
      obtain ⟨w1, h1, hs1, hi1, -, -⟩ := addSample_at w pre post x s hs hi
      have hlen' : post.length < rest.length := by simpa using hlen
      have h2 := ih w1 (pre ++ [s]) post (by simpa using hs1) (by simpa using hi1) hlen'
      simp only [pushAll, h1, h2]

/-! ## The saturating subtraction of instants -/

theorem Sub_self (t : Int) : Sub t t = 0 := by
  simp [Sub, maxDuration, minDuration]

theorem Sub_anti (t u v : Int) (h : u ≤ v) : Sub t v ≤ Sub t u := by
  unfold Sub
  simp only [maxDuration, minDuration]
  split_ifs <;> omega

theorem Sub_pos (t u : Int) (h : u < t) : 0 < Sub t u := by
  unfold Sub
  simp only [maxDuration, minDuration]
  split_ifs <;> omega

theorem Sub_le (t u : Int) (h : u ≤ t) : Sub t u ≤ t - u := by
  unfold Sub
  simp only [maxDuration, minDuration]
  split_ifs <;> omega

theorem Sub_exact (t u : Int) (h1 : minDuration ≤ t - u) (h2 : t - u ≤ maxDuration) :
    Sub t u = t - u := by
  unfold Sub
  simp only [maxDuration, minDuration] at *
  split_ifs <;> omega

theorem meanLoop_break_window {α : Type} [Add α] (samples : List (Sample α))
    (d start : Int) (fuel : Nat) (st : Walk α) (x : Sample α)
    (hx : slot samples st.i = some x) (hw : Sub start x.Instant > d) :
    meanLoop samples d start (fuel + 1) st =
      Except.ok { st with reads := st.reads ++ [st.i] } := by
  simp only [meanLoop, hx, if_pos hw]

theorem meanLoop_break_cap {α : Type} [Add α] (samples : List (Sample α))
    (d start : Int) (fuel : Nat) (st : Walk α) (x : Sample α)
    (hx : slot samples st.i = some x) (hcap : st.nu ≥ samples.length) :
    meanLoop samples d start (fuel + 1) st =
      Except.ok { st with reads := st.reads ++ [st.i] } := by
  simp only [meanLoop, hx, if_pos hcap, ite_self]

theorem meanLoop_fold {α : Type} [Add α] (samples : List (Sample α))
    (d start : Int) (fuel : Nat) (st : Walk α) (x : Sample α)
    (hx : slot samples st.i = some x) (hw : ¬ Sub start x.Instant > d)
    (hcap : ¬ st.nu ≥ samples.length) :
    meanLoop samples d start (fuel + 1) st =
      meanLoop samples d start fuel (st.fold samples.length x) := by
  simp only [meanLoop, hx, if_neg hw, if_neg hcap, Walk.fold]

theorem slot_some {α : Type} (samples : List (Sample α)) (i : Int) (h0 : 0 ≤ i)
    (h1 : i < samples.length) : ∃ x, slot samples i = some x := by
  unfold slot
  rw [if_neg (by omega)]
  have : i.toNat < samples.length := by omega
  exact ⟨samples[i.toNat], List.getElem?_eq_getElem this⟩

/-- The loop of `Mean` returns within `cap - nu + 1` iterations whatever the slots
hold, reads only slots inside the buffer and never counts past the capacity. -/
theorem meanLoop_total {α : Type} [Add α] (samples : List (Sample α)) (d start : Int) :
    ∀ (fuel : Nat) (st : Walk α), 0 ≤ st.i → st.i < samples.length →
      st.nu ≤ samples.length → samples.length - st.nu < fuel →
      ∃ st', meanLoop samples d start fuel st = Except.ok st' ∧
        st.nu ≤ st'.nu ∧ st'.nu ≤ samples.length ∧
        ∃ more : List Int, st'.reads = st.reads ++ more ∧
          ∀ j ∈ more, 0 ≤ j ∧ j < samples.length := by
  intro fuel
  induction fuel with
  | zero => intro st _ _ _ h; omega
  | succ fuel ih =>
    intro st h0 h1 hnu hfuel
    obtain ⟨x, hx⟩ := slot_some samples st.i h0 h1
    have hone : ∀ j ∈ [st.i], 0 ≤ j ∧ j < (samples.length : Int) := by
      intro j hj
      rw [List.mem_singleton] at hj
      omega
    by_cases hw : Sub start x.Instant > d
    · rw [meanLoop_break_window samples d start fuel st x hx hw]
      exact ⟨_, rfl, le_refl _, hnu, [st.i], rfl, hone⟩
    by_cases hcap : st.nu ≥ samples.length
    · rw [meanLoop_break_cap samples d start fuel st x hx hcap]
      exact ⟨_, rfl, le_refl _, hnu, [st.i], rfl, hone⟩
    rw [meanLoop_fold samples d start fuel st x hx hw hcap]
    have hi' : 0 ≤ (st.fold samples.length x).i ∧
        (st.fold samples.length x).i < samples.length := by
      simp only [Walk.fold]
      split_ifs <;> omega
    obtain ⟨st', hst', hnu1, hnu2, more, hmore, hall⟩ :=
      ih (st.fold samples.length x) hi'.1 hi'.2
        (by simp only [Walk.fold]; omega) (by simp only [Walk.fold]; omega)
    refine ⟨st', hst', by simp only [Walk.fold] at hnu1; omega, hnu2, st.i :: more, ?_, ?_⟩
    · rw [hmore]; simp [Walk.fold]
    · intro j hj
      rcases List.mem_cons.mp hj with rfl | hj
      · omega
      · exact hall j hj

/-! ## The backward walk of `Mean` -/

theorem slot_at {α : Type} (samples front post : List (Sample α)) (x : Sample α)
    (i : Int) (hs : samples = front ++ x :: post) (hi : i = front.length) :
    slot samples i = some x := by
  subst hs hi
  unfold slot
  rw [if_neg (by omega), Int.toNat_ofNat, List.getElem?_append_right (le_refl _)]
  simp

theorem foldAll_nu {α : Type} [Add α] (cap : Nat) (a : List (Sample α)) :
    ∀ st : Walk α, (st.foldAll cap a).nu = st.nu + a.length := by
  induction a with
  | nil => intro st; rfl
  | cons x a ih =>
    intro st
    simp only [Walk.foldAll, List.foldl_cons, List.length_cons] at ih ⊢
    rw [ih]
    simp only [Walk.fold]
    omega

theorem foldAll_sumA {α : Type} [Add α] (cap : Nat) (a : List (Sample α)) :
    ∀ st : Walk α,
      (st.foldAll cap a).sumA = (a.map (fun x => x.Current)).foldl (fun s c => s + c) st.sumA := by
  induction a with
  | nil => intro st; rfl
  | cons x a ih =>
    intro st
    simp only [Walk.foldAll, List.foldl_cons, List.map_cons] at ih ⊢
    rw [ih]
    rfl

theorem foldAll_sumV {α : Type} [Add α] (cap : Nat) (a : List (Sample α)) :
    ∀ st : Walk α,
      (st.foldAll cap a).sumV = (a.map (fun x => x.Voltage)).foldl (fun s c => s + c) st.sumV := by
  induction a with
  | nil => intro st; rfl
  | cons x a ih =>
    intro st
    simp only [Walk.foldAll, List.foldl_cons, List.map_cons] at ih ⊢
    rw [ih]
    rfl

theorem foldAll_sumW {α : Type} [Add α] (cap : Nat) (a : List (Sample α)) :
    ∀ st : Walk α,
      (st.foldAll cap a).sumW = (a.map (fun x => x.Power)).foldl (fun s c => s + c) st.sumW := by
  induction a with
  | nil => intro st; rfl
  | cons x a ih =>
    intro st
    simp only [Walk.foldAll, List.foldl_cons, List.map_cons] at ih ⊢
    rw [ih]
    rfl

theorem foldAll_lastSample {α : Type} [Add α] (cap : Nat) (a : List (Sample α)) :
    ∀ st : Walk α,
      (st.foldAll cap a).lastSample = a.foldl (fun _ x => x.Instant) st.lastSample := by
  induction a with
  | nil => intro st; rfl
  | cons x a ih =>
    intro st
    simp only [Walk.foldAll, List.foldl_cons] at ih ⊢
    rw [ih]
    rfl

/-- The walk that leaves the window inside the written prefix: the samples `a` are
folded and the loop breaks on `s`, the first sample older than the window. -/
theorem meanLoop_walk_break {α : Type} [Add α] (samples : List (Sample α))
    (d start : Int) (pre : List (Sample α)) (s : Sample α)
    (hout : Sub start s.Instant > d) (a : List (Sample α)) :
    ∀ (st : Walk α) (post : List (Sample α)) (fuel : Nat),
      samples = pre ++ s :: (a.reverse ++ post) →
      st.i = (pre.length : Int) + a.length →
      (∀ x ∈ a, ¬ Sub start x.Instant > d) →
      st.nu + a.length ≤ samples.length → a.length < fuel →
      meanLoop samples d start fuel st =
        Except.ok { st.foldAll samples.length a with
          reads := (st.foldAll samples.length a).reads ++ [(st.foldAll samples.length a).i] } := by
  induction a with
  | nil =>
    intro st post fuel hs hi _ _ hfuel
    obtain ⟨fuel, rfl⟩ : ∃ f, fuel = f + 1 := ⟨fuel - 1, by simp at hfuel; omega⟩
    have hx : slot samples st.i = some s := slot_at samples pre _ s st.i hs (by simpa using hi)
    rw [meanLoop_break_window samples d start fuel st s hx hout]
    rfl
  | cons x a ih =>
    intro st post fuel hs hi hin hnu hfuel
    obtain ⟨fuel, rfl⟩ : ∃ f, fuel = f + 1 := ⟨fuel - 1, by simp at hfuel; omega⟩
    have hs' : samples = pre ++ s :: (a.reverse ++ x :: post) := by
      rw [hs]; simp
    have hx : slot samples st.i = some x :=
      slot_at samples (pre ++ s :: a.reverse) post x st.i (by rw [hs']; simp)
        (by rw [hi]; simp)
    have hw : ¬ Sub start x.Instant > d := hin x (List.mem_cons_self x a)
    have hcap : ¬ st.nu ≥ samples.length := by
      simp only [List.length_cons] at hnu
      omega
    rw [meanLoop_fold samples d start fuel st x hx hw hcap]
    have hi1 : (st.fold samples.length x).i = (pre.length : Int) + a.length := by
      simp only [Walk.fold, hi, List.length_cons]
      rw [if_neg (by omega)]
      push_cast
      omega
    rw [ih (st.fold samples.length x) (x :: post) fuel hs' hi1
      (fun y hy => hin y (List.mem_cons_of_mem x hy))
      (by simp only [Walk.fold, List.length_cons] at hnu ⊢; omega)
      (by simp only [List.length_cons] at hfuel; omega)]
    simp only [Walk.foldAll, List.foldl_cons]

/-- The walk that folds the whole written prefix `a` and wraps to the last slot. -/
theorem meanLoop_walk_wrap {α : Type} [Add α] (samples : List (Sample α))
    (d start : Int) (a : List (Sample α)) :
    ∀ (st : Walk α) (post : List (Sample α)) (fuel : Nat), a ≠ [] →
      samples = a.reverse ++ post →
      st.i = (a.length : Int) - 1 →
      (∀ x ∈ a, ¬ Sub start x.Instant > d) →
      st.nu + a.length ≤ samples.length → a.length ≤ fuel →
      meanLoop samples d start fuel st =
          meanLoop samples d start (fuel - a.length) (st.foldAll samples.length a) ∧
        (st.foldAll samples.length a).i = (samples.length : Int) - 1 := by
  induction a with
  | nil => intro st post fuel h; exact absurd rfl h
  | cons x a ih =>
    intro st post fuel _ hs hi hin hnu hfuel
    obtain ⟨fuel, rfl⟩ : ∃ f, fuel = f + 1 := ⟨fuel - 1, by simp at hfuel; omega⟩
    have hs' : samples = a.reverse ++ x :: post := by
      rw [hs]; simp
    have hx : slot samples st.i = some x :=
      slot_at samples a.reverse post x st.i hs' (by rw [hi]; simp)
    have hw : ¬ Sub start x.Instant > d := hin x (List.mem_cons_self x a)
    have hcap : ¬ st.nu ≥ samples.length := by
      simp only [List.length_cons] at hnu
      omega
    rw [meanLoop_fold samples d start fuel st x hx hw hcap]
    cases a with
    | nil =>
      have hi0 : st.i = 0 := by simpa using hi
      refine ⟨by simp [Walk.foldAll], ?_⟩
      simp [Walk.foldAll, Walk.fold, hi0]
    | cons y a =>
      have hi1 : (st.fold samples.length x).i = (((y :: a).length : Nat) : Int) - 1 := by
        simp only [Walk.fold, hi, List.length_cons]
        rw [if_neg (by omega)]
        push_cast
        omega
      obtain ⟨h1, h2⟩ := ih (st.fold samples.length x) (x :: post) fuel (by simp) hs' hi1
        (fun z hz => hin z (List.mem_cons_of_mem x hz))
        (by simp only [Walk.fold, List.length_cons] at hnu ⊢; omega)
        (by simp only [List.length_cons] at hfuel ⊢; omega)
      refine ⟨?_, h2⟩
      rw [h1]
      have : fuel + 1 - (x :: y :: a).length = fuel - (y :: a).length := by
        simp only [List.length_cons]; omega
      rw [this]
      rfl

/-! ## `Mean` on the states reached by pushes -/

theorem filter_eq_takeWhile {β : Type} (p : β → Bool) :
    ∀ l : List β, l.Pairwise (fun x y => p y = true → p x = true) →
      l.filter p = l.takeWhile p := by
  intro l
  induction l with
  | nil => intro _; rfl
  | cons x l ih =>
    intro h
    rw [List.pairwise_cons] at h
    by_cases hx : p x = true
    · rw [List.filter_cons_of_pos hx, List.takeWhile_cons_of_pos hx, ih h.2]
    · rw [List.filter_cons_of_neg hx, List.takeWhile_cons_of_neg hx, List.filter_eq_nil_iff]
      intro y hy hpy
      exact hx (h.1 y hy hpy)

theorem window_eq_takeWhile {α : Type} (l : List (Sample α)) (newest d : Int)
    (hts : (l.map (fun s => s.Instant)).Pairwise (fun a b => a < b)) :
    window l newest d = l.reverse.takeWhile (inWindow newest d) := by
  apply filter_eq_takeWhile
  rw [List.pairwise_reverse]
  rw [List.pairwise_map] at hts
  refine hts.imp ?_
  intro x y hxy hx
  simp only [inWindow, decide_eq_true_eq] at hx ⊢
  exact le_trans (Sub_anti newest x.Instant y.Instant (le_of_lt hxy)) hx

theorem slot_last_zero {α : Type} [Zero α] (l : List (Sample α)) (N : Nat)
    (h : l.length < N) :
    slot (l ++ List.replicate (N - l.length) Sample.zero) ((N : Int) - 1) =
      some Sample.zero := by
  have hN : ((N : Int) - 1) = ((N - 1 : Nat) : Int) := by omega
  rw [hN, slot_natCast, List.getElem?_append_right (by omega), List.getElem?_replicate]
  rw [if_pos (by omega)]

theorem meanLoop_break {α : Type} [Add α] (samples : List (Sample α))
    (d start : Int) (fuel : Nat) (st : Walk α) (x : Sample α)
    (hx : slot samples st.i = some x)
    (h : Sub start x.Instant > d ∨ st.nu ≥ samples.length) :
    meanLoop samples d start (fuel + 1) st =
      Except.ok { st with reads := st.reads ++ [st.i] } := by
  rcases h with h | h
  · exact meanLoop_break_window samples d start fuel st x hx h
  · exact meanLoop_break_cap samples d start fuel st x hx h

/-- `Mean` after `k` pushes (`1 <= k <= N`) with strictly increasing timestamps into
a fresh buffer: it folds exactly the pushed samples in the window, provided that a
never-written slot is not reached inside the window. -/
theorem Mean_after_pushes {α : Type} [Zero α] [Add α] [Div α] [NatCast α]
    (N : Nat) (log : Option (Writer α)) (interval : Int) (l : List (Sample α))
    (newest : Sample α) (now d : Int)
    (hlast : l.getLast? = some newest) (hkN : l.length ≤ N)
    (hts : (l.map (fun s => s.Instant)).Pairwise (fun a b => a < b))
    (hzero : l.length < N → (∀ s ∈ l, Sub newest.Instant s.Instant ≤ d) →
      Sub newest.Instant zeroTime > d) :
    ∃ w tr, pushAll (freshWatcher log interval N) l = Except.ok w ∧
      w.samples = l ++ List.replicate (N - l.length) Sample.zero ∧
      w.index = l.length ∧
      MeanT w now d = Except.ok
        ({ Instant := now
           Current := mean ((window l newest.Instant d).map (fun s => s.Current))
           Voltage := mean ((window l newest.Instant d).map (fun s => s.Voltage))
           Power := mean ((window l newest.Instant d).map (fun s => s.Power))
           TimeFrame := Sub newest.Instant
             ((window l newest.Instant d).foldl (fun _ s => s.Instant) zeroTime)
           NuSamples := (window l newest.Instant d).length }, tr) := by
  obtain ⟨w, hw, hsamples, hindex, -, -⟩ :=
    pushAll_at l (freshWatcher log interval N) [] (List.replicate N Sample.zero) rfl rfl
      (by simpa using hkN)
  have hsamples' : w.samples = l ++ List.replicate (N - l.length) Sample.zero := by
    rw [hsamples]; simp
  have hindex' : w.index = l.length := by rw [hindex]; simp
  have hcap : w.samples.length = N := by rw [hsamples']; simp; omega
  -- the newest sample is in the slot before the cursor
  obtain ⟨init, hinit⟩ : ∃ init, l = init ++ [newest] := by
    rw [List.getLast?_eq_some_iff] at hlast
    exact hlast
  have hk : l.length = init.length + 1 := by rw [hinit]; simp
  have hfirst : slot w.samples (w.index - 1) = some newest :=
    slot_at w.samples init (List.replicate (N - l.length) Sample.zero) newest _
      (by rw [hsamples', hinit]; simp) (by rw [hindex', hk]; push_cast; omega)
  have hwin := window_eq_takeWhile l newest.Instant d hts
  have hsplit := List.takeWhile_append_dropWhile (inWindow newest.Instant d) l.reverse
  -- the loop
  have hloop : ∃ st, meanLoop w.samples d newest.Instant (w.samples.length + 1)
        { sumA := 0, sumV := 0, sumW := 0, lastSample := zeroTime, nu := 0,
          i := w.index - 1, reads := [w.index - 1] } = Except.ok st ∧
      st.nu = (window l newest.Instant d).length ∧
      st.sumA = ((window l newest.Instant d).map (fun s => s.Current)).foldl (fun s c => s + c) 0 ∧
      st.sumV = ((window l newest.Instant d).map (fun s => s.Voltage)).foldl (fun s c => s + c) 0 ∧
      st.sumW = ((window l newest.Instant d).map (fun s => s.Power)).foldl (fun s c => s + c) 0 ∧
      st.lastSample = (window l newest.Instant d).foldl (fun _ s => s.Instant) zeroTime := by
    rw [hwin]
    have hall : ∀ x ∈ l.reverse.takeWhile (inWindow newest.Instant d),
        ¬ Sub newest.Instant x.Instant > d := by
      intro x hx
      have := List.mem_takeWhile_imp hx
      simp only [inWindow, decide_eq_true_eq] at this
      omega
    have hlen : (l.reverse.takeWhile (inWindow newest.Instant d)).length ≤ l.length := by
      have := congrArg List.length hsplit
      simp only [List.length_append, List.length_reverse] at this
      omega
    cases hdw : l.reverse.dropWhile (inWindow newest.Instant d) with
    | cons s rest =>
      have hs : ¬ inWindow newest.Instant d s = true := by
        have := List.head_dropWhile_not (inWindow newest.Instant d) l.reverse
          (by rw [hdw]; simp)
        simpa [hdw] using this
      have hout : Sub newest.Instant s.Instant > d := by
        simp only [inWindow, decide_eq_true_eq] at hs
        omega
      rw [hdw] at hsplit
      have hl : l = rest.reverse ++ s ::
          ((l.reverse.takeWhile (inWindow newest.Instant d)).reverse) := by
        have := congrArg List.reverse hsplit
        simp only [List.reverse_append, List.reverse_cons, List.reverse_reverse,
          List.append_assoc, List.singleton_append] at this
        exact this.symm
      have hlen2 : l.length = rest.length + 1 +
          (l.reverse.takeWhile (inWindow newest.Instant d)).length := by
        have := congrArg List.length hl
        simp only [List.length_append, List.length_reverse, List.length_cons] at this
        omega
      refine ⟨_, meanLoop_walk_break w.samples d newest.Instant rest.reverse s hout
        (l.reverse.takeWhile (inWindow newest.Instant d)) _
        (List.replicate (N - l.length) Sample.zero) _ ?_ ?_ hall ?_ ?_, ?_, ?_, ?_, ?_, ?_⟩
      · rw [hsamples']
        conv_lhs => rw [hl]
        simp
        omega
      · rw [hindex', hlen2]; simp; omega
      · simp only; omega
      · omega
      · simp only [foldAll_nu]; omega
      · simp only [foldAll_sumA]
      · simp only [foldAll_sumV]
      · simp only [foldAll_sumW]
      · simp only [foldAll_lastSample]
    | nil =>
      rw [hdw, List.append_nil] at hsplit
      rw [hsplit] at hall ⊢
      have hne : l.reverse ≠ [] := by rw [hinit]; simp
      obtain ⟨h1, h2⟩ := meanLoop_walk_wrap w.samples d newest.Instant l.reverse
        { sumA := 0, sumV := 0, sumW := 0, lastSample := zeroTime, nu := 0,
          i := w.index - 1, reads := [w.index - 1] }
        (List.replicate (N - l.length) Sample.zero) (w.samples.length + 1) hne
        (by rw [hsamples']; simp) (by rw [hindex']; simp) hall
        (by simp only [List.length_reverse]; omega)
        (by simp only [List.length_reverse]; omega)
      rw [h1]
      obtain ⟨f, hf⟩ : ∃ f, w.samples.length + 1 - l.reverse.length = f + 1 :=
        ⟨w.samples.length - l.reverse.length, by
          simp only [List.length_reverse]; omega⟩
      rw [hf]
      have hbreak : ∃ x, slot w.samples (Walk.foldAll
            { sumA := (0 : α), sumV := 0, sumW := 0, lastSample := zeroTime, nu := 0,
              i := w.index - 1, reads := [w.index - 1] } w.samples.length l.reverse).i = some x ∧
          (Sub newest.Instant x.Instant > d ∨ l.length = N) := by
        rw [h2, hcap]
        by_cases hfull : l.length = N
        · obtain ⟨x, hx⟩ := slot_some w.samples ((N : Int) - 1) (by omega) (by omega)
          exact ⟨x, hx, Or.inr hfull⟩
        · have hlt : l.length < N := by omega
          refine ⟨Sample.zero, ?_, Or.inl ?_⟩
          · rw [hsamples']; exact slot_last_zero l N hlt
          · refine hzero hlt ?_
            intro s hs
            have := hall s (by simpa using hs)
            omega
      obtain ⟨x, hx, hor⟩ := hbreak
      have hres := meanLoop_break w.samples d newest.Instant f _ x hx
        (hor.imp id (fun hfull => by
          simp only [foldAll_nu, List.length_reverse]; omega))
      refine ⟨_, hres, ?_, ?_, ?_, ?_, ?_⟩
      · simp only [foldAll_nu]; omega
      · simp only [foldAll_sumA]
      · simp only [foldAll_sumV]
      · simp only [foldAll_sumW]
      · simp only [foldAll_lastSample]
  obtain ⟨st, hst, hnu, hA, hV, hW, hlastS⟩ := hloop
  refine ⟨w, { reads := st.reads, divs := [st.nu, st.nu, st.nu] }, hw, hsamples', hindex', ?_⟩
  unfold MeanT
  have hi : ¬ (w.index - 1 < 0) := by rw [hindex', hk]; push_cast; omega
  simp only [if_neg hi, hfirst, hst, mean, hnu, hA, hV, hW, hlastS, List.length_map]

theorem Mean_of_MeanT {α : Type} [Zero α] [Add α] [Div α] [NatCast α] (w : Watcher α)
    (now d : Int) (r : Result α) (tr : Trace) (h : MeanT w now d = Except.ok (r, tr)) :
    Mean w now d = Except.ok r := by
  simp only [Mean, h]

theorem instant_le_newest {α : Type} (l : List (Sample α)) (newest : Sample α)
    (hlast : l.getLast? = some newest)
    (hts : (l.map (fun s => s.Instant)).Pairwise (fun a b => a < b)) :
    ∀ s ∈ l, s.Instant ≤ newest.Instant := by
  rw [List.getLast?_eq_some_iff] at hlast
  obtain ⟨init, rfl⟩ := hlast
  rw [List.pairwise_map, List.pairwise_append] at hts
  intro s hs
  rcases List.mem_append.mp hs with h | h
  · exact le_of_lt (hts.2.2 s h newest (List.mem_singleton_self newest))
  · rw [List.mem_singleton] at h
    rw [h]

theorem window_length {α : Type} (l : List (Sample α)) (newest d : Int) :
    (window l newest d).length = (l.filter (inWindow newest d)).length := by
  unfold window
  rw [List.filter_reverse, List.length_reverse]

theorem pushAll_fresh {α : Type} [Zero α] (N : Nat) (log : Option (Writer α))
    (interval : Int) (l : List (Sample α)) (hkN : l.length ≤ N) :
    ∃ w, pushAll (freshWatcher log interval N) l = Except.ok w ∧
      w.samples = l ++ List.replicate (N - l.length) Sample.zero ∧
      w.index = l.length := by
  obtain ⟨w, hw, hsamples, hindex, -, -⟩ :=
    pushAll_at l (freshWatcher log interval N) [] (List.replicate N Sample.zero) rfl rfl
      (by simpa using hkN)
  exact ⟨w, hw, by rw [hsamples]; simp, by rw [hindex]; simp⟩

theorem pushAll_fresh_overflow {α : Type} [Zero α] (N : Nat) (log : Option (Writer α))
    (interval : Int) (l : List (Sample α)) (hl : N < l.length) :
    pushAll (freshWatcher log interval N) l = Except.error Fault.indexOutOfRange :=
  pushAll_overflow l (freshWatcher log interval N) [] (List.replicate N Sample.zero) rfl rfl
    (by simpa using hl)

theorem pushAll_fresh_inv {α : Type} [Zero α] (N : Nat) (log : Option (Writer α))
    (interval : Int) (l : List (Sample α)) (w : Watcher α)
    (hrun : pushAll (freshWatcher log interval N) l = Except.ok w) :
    l.length ≤ N ∧ w.samples = l ++ List.replicate (N - l.length) Sample.zero ∧
      w.index = l.length := by
  by_cases hl : N < l.length
  · rw [pushAll_fresh_overflow N log interval l hl] at hrun
    cases hrun
  · obtain ⟨w', hw', h1, h2⟩ := pushAll_fresh N log interval l (by omega)
    rw [hw'] at hrun
    cases hrun
    exact ⟨by omega, h1, h2⟩

theorem MeanT_eq {α : Type} [Zero α] [Add α] [Div α] [NatCast α] (w : Watcher α)
    (now d : Int) (first : Sample α) (st : Walk α) (hi : 0 ≤ w.index - 1)
    (hfirst : slot w.samples (w.index - 1) = some first)
    (hst : meanLoop w.samples d first.Instant (w.samples.length + 1)
      { sumA := 0, sumV := 0, sumW := 0, lastSample := zeroTime, nu := 0,
        i := w.index - 1, reads := [w.index - 1] } = Except.ok st) :
    MeanT w now d = Except.ok
      ({ Instant := now
         Current := st.sumA / (st.nu : α)
         Voltage := st.sumV / (st.nu : α)
         Power := st.sumW / (st.nu : α)
         TimeFrame := Sub first.Instant st.lastSample
         NuSamples := st.nu },
       { reads := st.reads, divs := [st.nu, st.nu, st.nu] }) := by
  unfold MeanT
  have hneg : ¬ (w.index - 1 < 0) := by omega
  simp only [if_neg hneg, hfirst, hst]

theorem window_all {α : Type} (l : List (Sample α)) (newest d : Int)
    (h : ∀ s ∈ l, Sub newest s.Instant ≤ d) : window l newest d = l.reverse := by
  unfold window
  rw [List.filter_eq_self]
  intro s hs
  simp only [inWindow, decide_eq_true_eq]
  exact h s (List.mem_reverse.mp hs)

/-! ## The claims -/

/-- C1: after `k` pushes (`1 <= k <= N`) with strictly increasing timestamps into a
fresh buffer of capacity `N >= 2`, and for `d >= 0` that leaves the never-written
slots outside the window, `Mean(d)` returns as `NuSamples` the number of pushed
samples `s` with `newest.Instant.Sub(s.Instant) <= d`, and as `Current`, `Voltage`
and `Power` the means of exactly those samples (added newest first). Below the
largest duration the saturating `Sub` is the plain difference of the instants. -/
theorem Mean_window_mean {α : Type} [Zero α] [Add α] [Div α] [NatCast α]
    (N : Nat) (hN : 2 ≤ N) (log : Option (Writer α)) (interval : Int)
    (l : List (Sample α)) (newest : Sample α) (now d : Int)
    (hlast : l.getLast? = some newest) (hkN : l.length ≤ N)
    (hts : (l.map (fun s => s.Instant)).Pairwise (fun a b => a < b))
    (hd : 0 ≤ d)
    (hzero : l.length < N → Sub newest.Instant zeroTime > d) :
    ∃ w r, pushAll (freshWatcher log interval N) l = Except.ok w ∧
      Mean w now d = Except.ok r ∧
      r.NuSamples = (l.filter (fun s => decide (Sub newest.Instant s.Instant ≤ d))).length ∧
      (d < maxDuration → r.NuSamples =
        (l.filter (fun s => decide (newest.Instant - s.Instant ≤ d))).length) ∧
      r.Current = mean ((window l newest.Instant d).map (fun s => s.Current)) ∧
      r.Voltage = mean ((window l newest.Instant d).map (fun s => s.Voltage)) ∧
      r.Power = mean ((window l newest.Instant d).map (fun s => s.Power)) ∧
      window l newest.Instant d =
        l.reverse.filter (fun s => decide (Sub newest.Instant s.Instant ≤ d)) := by
  obtain ⟨w, tr, hw, -, -, hm⟩ := Mean_after_pushes N log interval l newest now d hlast hkN
    hts (fun h _ => hzero h)
  have hle := instant_le_newest l newest hlast hts
  refine ⟨w, _, hw, Mean_of_MeanT w now d _ tr hm, ?_, ?_, rfl, rfl, rfl, rfl⟩
  · exact window_length l newest.Instant d
  · intro hmax
    show (window l newest.Instant d).length = _
    rw [window_length]
    congr 1
    apply List.filter_congr
    intro s hs
    have h1 := hle s hs
    simp only [inWindow, Sub, maxDuration, minDuration] at hmax ⊢
    split_ifs <;> simp only [decide_eq_decide] <;> omega

theorem Mean_window_mean_witness :
    ∃ w r, pushAll (freshWatcher none 1000000000 10) scenario = Except.ok w ∧
      Mean w 0 3000000000 = Except.ok r ∧ r.NuSamples = 4 ∧ r.Current = 17 / 2 := by
  obtain ⟨w, r, hw, hr, hnu, -, hcur, -, -, hwin⟩ :=
    Mean_window_mean 10 (by decide) none 1000000000 scenario (tick 10) 0 3000000000
      (by rfl) (by decide) (by decide) (by decide) (by decide)
  refine ⟨w, r, hw, hr, ?_, ?_⟩
  · rw [hnu]; decide
  · have h4 : window scenario (tick 10).Instant 3000000000 = [tick 10, tick 9, tick 8, tick 7] := by
      rw [hwin]; decide
    rw [hcur, h4]
    norm_num [mean, tick]

/-- C2: for every capacity `N >= 2`, `N` calls of `addSample` on a fresh buffer all
return (so does every shorter run), and afterwards the storage is exactly the `N`
pushed samples, slot `j` holding the `j`-th of them. -/
theorem addSample_fills_buffer {α : Type} [Zero α] (N : Nat) (hN : 2 ≤ N)
    (log : Option (Writer α)) (interval : Int) (l : List (Sample α))
    (hl : l.length = N) :
    (∀ m, m ≤ N → ∃ w, pushAll (freshWatcher log interval N) (l.take m) = Except.ok w) ∧
    ∃ w, pushAll (freshWatcher log interval N) l = Except.ok w ∧ w.samples = l ∧
      ∀ j : Nat, j < N → slot w.samples (j : Int) = l[j]? ∧ (l[j]?).isSome = true := by
  constructor
  · intro m hm
    obtain ⟨w, hw, -, -⟩ := pushAll_fresh N log interval (l.take m)
      (by rw [List.length_take]; omega)
    exact ⟨w, hw⟩
  · obtain ⟨w, hw, hs, -⟩ := pushAll_fresh N log interval l (by omega)
    have hs' : w.samples = l := by rw [hs, hl]; simp
    refine ⟨w, hw, hs', ?_⟩
    intro j hj
    rw [hs', slot_natCast]
    have : j < l.length := by omega
    exact ⟨rfl, by rw [List.getElem?_eq_getElem this]; rfl⟩

theorem addSample_fills_buffer_witness :
    ∃ w, pushAll (freshWatcher none 1000000000 10) scenario = Except.ok w ∧
      w.samples = scenario :=
  ((addSample_fills_buffer 10 (by decide) none 1000000000 scenario (by decide)).2).imp
    (fun _ h => ⟨h.1, h.2.1⟩)

/-- C3 (what the code does): more than `N` pushes into a fresh buffer of capacity `N`
do not all return. The first `N` calls return and leave the cursor at `N`; the next
call of `addSample`, whatever its sample, stops with the index-out-of-range panic,
and so does the whole run. -/
theorem addSample_panics_past_capacity {α : Type} [Zero α] (N : Nat) (hN : 2 ≤ N)
    (log : Option (Writer α)) (interval : Int) (l : List (Sample α))
    (hl : N < l.length) :
    pushAll (freshWatcher log interval N) l = Except.error Fault.indexOutOfRange ∧
    ∃ w, pushAll (freshWatcher log interval N) (l.take N) = Except.ok w ∧
      w.index = N ∧ ∀ s, addSample w s = Except.error Fault.indexOutOfRange := by
  refine ⟨pushAll_fresh_overflow N log interval l hl, ?_⟩
  have hlen : (l.take N).length = N := by rw [List.length_take]; omega
  obtain ⟨w, hw, hs, hi⟩ := pushAll_fresh N log interval (l.take N) (by omega)
  refine ⟨w, hw, by rw [hi, hlen], ?_⟩
  intro s
  apply addSample_full
  rw [hi, hs]
  simp
  omega

theorem addSample_panics_past_capacity_witness :
    pushAll (freshWatcher none 1000000000 2) [tick 1, tick 2, tick 3] =
      Except.error Fault.indexOutOfRange :=
  (addSample_panics_past_capacity 2 (by decide) none 1000000000 [tick 1, tick 2, tick 3]
    (by decide)).1

/-- C4 (what the code does): with the cursor in `[0, N)`, `addSample` writes the
sample at `samples[index]` and leaves the cursor at `index + 1`; from the last slot
`N - 1` that is `N`, not `(index + 1) mod N = 0`. -/
theorem addSample_cursor_step {α : Type} (w : Watcher α) (s : Sample α)
    (hN : 2 ≤ w.samples.length) (h0 : 0 ≤ w.index)
    (h1 : w.index < w.samples.length) :
    ∃ w', addSample w s = Except.ok w' ∧
      w'.samples = w.samples.set w.index.toNat s ∧
      slot w'.samples w.index = some s ∧
      w'.index = w.index + 1 ∧
      (w.index = (w.samples.length : Int) - 1 →
        w'.index = w.samples.length ∧
        w'.index ≠ (w.index + 1) % (w.samples.length : Int)) := by
  have hc : ¬ (w.index < 0 ∨ (w.samples.length : Int) ≤ w.index) := by omega
  have hidx : ¬ (w.index + 1 > ((w.samples.set w.index.toNat s).length : Int)) := by
    rw [List.length_set]; omega
  refine ⟨{ w with samples := w.samples.set w.index.toNat s,
                   log := w.log.map (fun sink => sink.fprintf s),
                   index := w.index + 1 }, ?_, rfl, ?_, rfl, ?_⟩
  · unfold addSample
    rw [if_neg hc]
    simp only [if_neg hidx]
  · unfold slot
    rw [if_neg (by omega)]
    simp only
    rw [List.getElem?_set_self (by omega)]
  · intro hlast
    simp only
    constructor
    · omega
    · rw [hlast]
      have : (w.samples.length : Int) - 1 + 1 = w.samples.length := by omega
      rw [this, Int.emod_self]
      omega

theorem addSample_cursor_step_witness :
    ∃ w', addSample
        ({ log := none, interval := 1000000000, samples := [tick 1, Sample.zero],
           index := 1, length := 0 } : Watcher ℚ) (tick 2) = Except.ok w' ∧
      w'.index = 2 ∧ w'.index ≠ (1 + 1) % 2 := by
  obtain ⟨w', hw', -, -, hi, hlast⟩ := addSample_cursor_step
    ({ log := none, interval := 1000000000, samples := [tick 1, Sample.zero],
       index := 1, length := 0 } : Watcher ℚ) (tick 2) (by decide) (by decide) (by decide)
  exact ⟨w', hw', hi, (hlast (by decide)).2⟩

/-- C5 (what the code does): from a fresh Watcher of capacity `N`, every state that
a run of `addSample` calls reaches has `0 <= index <= N`, and the bound `N` is
attained: after `N` pushes the cursor is `N`, outside `[0, N)`. -/
theorem addSample_cursor_reaches_cap {α : Type} [Zero α] (N : Nat) (hN : 2 ≤ N)
    (log : Option (Writer α)) (interval : Int) :
    (∀ (l : List (Sample α)) (w : Watcher α),
      pushAll (freshWatcher log interval N) l = Except.ok w →
        0 ≤ w.index ∧ w.index ≤ N ∧ w.samples.length = N) ∧
    (∀ l : List (Sample α), l.length = N →
      ∃ w, pushAll (freshWatcher log interval N) l = Except.ok w ∧ w.index = N ∧
        ¬ (w.index < N)) := by
  constructor
  · intro l w hrun
    obtain ⟨h1, h2, h3⟩ := pushAll_fresh_inv N log interval l w hrun
    refine ⟨by omega, by omega, ?_⟩
    rw [h2]; simp; omega
  · intro l hl
    obtain ⟨w, hw, -, hi⟩ := pushAll_fresh N log interval l (by omega)
    exact ⟨w, hw, by rw [hi, hl], by rw [hi, hl]; omega⟩

theorem addSample_cursor_reaches_cap_witness :
    ∃ w, pushAll (freshWatcher none 1000000000 2) [tick 1, tick 2] = Except.ok w ∧
      w.index = 2 ∧ ¬ (w.index < 2) :=
  (addSample_cursor_reaches_cap 2 (by decide) none 1000000000).2 [tick 1, tick 2] rfl

/-- C6: in every state reached from a fresh buffer of capacity `N >= 2` by a
non-empty run of returning `addSample` calls, the slot `samples[(index - 1) mod N]`
holds the sample pushed last, and it is the first slot `Mean` reads. -/
theorem addSample_newest_slot {α : Type} [Zero α] [Add α] [Div α] [NatCast α]
    (N : Nat) (hN : 2 ≤ N) (log : Option (Writer α)) (interval : Int)
    (l : List (Sample α)) (w : Watcher α) (newest : Sample α)
    (hrun : pushAll (freshWatcher log interval N) l = Except.ok w)
    (hlast : l.getLast? = some newest) (now d : Int) :
    slot w.samples ((w.index - 1) % (N : Int)) = some newest ∧
    ∃ r tr, MeanT w now d = Except.ok (r, tr) ∧
      tr.reads.head? = some ((w.index - 1) % (N : Int)) := by
  obtain ⟨hkN, hs, hi⟩ := pushAll_fresh_inv N log interval l w hrun
  obtain ⟨init, hinit⟩ : ∃ init, l = init ++ [newest] := by
    rw [List.getLast?_eq_some_iff] at hlast
    exact hlast
  have hk : l.length = init.length + 1 := by rw [hinit]; simp
  have hcap : w.samples.length = N := by rw [hs]; simp; omega
  have hmod : (w.index - 1) % (N : Int) = w.index - 1 :=
    Int.emod_eq_of_lt (by omega) (by omega)
  have hfirst : slot w.samples (w.index - 1) = some newest :=
    slot_at w.samples init (List.replicate (N - l.length) Sample.zero) newest _
      (by rw [hs, hinit]; simp) (by rw [hi, hk]; push_cast; omega)
  rw [hmod]
  refine ⟨hfirst, ?_⟩
  obtain ⟨st, hst, -, -, more, hmore, -⟩ := meanLoop_total w.samples d newest.Instant
    (w.samples.length + 1)
    { sumA := 0, sumV := 0, sumW := 0, lastSample := zeroTime, nu := 0,
      i := w.index - 1, reads := [w.index - 1] }
    (by simp only; omega) (by simp only; omega) (by simp only; omega) (by simp only; omega)
  refine ⟨_, _, MeanT_eq w now d newest st (by omega) hfirst hst, ?_⟩
  simp only [hmore]
  rfl

theorem addSample_newest_slot_witness :
    ∃ w, pushAll (freshWatcher none 1000000000 10) scenario = Except.ok w ∧
      slot w.samples ((w.index - 1) % 10) = some (tick 10) := by
  obtain ⟨w, hw, -⟩ := pushAll_fresh 10 none 1000000000 scenario (by decide)
  exact ⟨w, hw, (addSample_newest_slot 10 (by decide) none 1000000000 scenario w (tick 10)
    hw rfl 0 0).1⟩

/-- C7 (as stated, refuted): one sample stamped 2026-11-04 00:00 UTC (63929347200 s
after the zero `time.Time`) pushed into a fresh buffer of capacity 2, then `Mean`
with the largest duration. The span of the history is 0 and
one sample is held, yet `Mean` also folds the never-written slot: `NuSamples` is 2
and `TimeFrame` is the largest duration. -/
theorem Mean_full_history_counts_unwritten_slot :
    ∃ w r, pushAll (freshWatcher none 1000000000 2)
        [({ Instant := 63929347200000000000, Current := 5, Voltage := 1000000,
            Power := 5 } : Sample ℚ)] = Except.ok w ∧
      Mean w 63929347200000000001 maxDuration = Except.ok r ∧
      (63929347200000000000 : Int) - 63929347200000000000 ≤ maxDuration ∧
      r.NuSamples = 2 ∧ r.NuSamples ≠ 1 ∧
      r.TimeFrame = maxDuration ∧ r.TimeFrame ≠ 63929347200000000000 - 63929347200000000000 :=
  ⟨_, _, rfl, rfl, by decide, rfl, by decide, by decide, by decide⟩

/-- C7 (amended): after `k >= 1` pushes with strictly increasing timestamps into a
fresh buffer of capacity `N >= 2`, for every duration `d` that is at least the span
`newest.Instant - oldest.Instant` and, while the buffer is not yet full, leaves the
never-written slots outside the window, `Mean(d)` returns `NuSamples = k` and
`TimeFrame = newest.Instant - oldest.Instant`. -/
theorem Mean_full_history {α : Type} [Zero α] [Add α] [Div α] [NatCast α]
    (N : Nat) (hN : 2 ≤ N) (log : Option (Writer α)) (interval : Int)
    (l : List (Sample α)) (newest oldest : Sample α) (now d : Int)
    (hlast : l.getLast? = some newest) (hfirst : l.head? = some oldest)
    (hkN : l.length ≤ N)
    (hts : (l.map (fun s => s.Instant)).Pairwise (fun a b => a < b))
    (hspan : newest.Instant - oldest.Instant ≤ d) (hdur : d ≤ maxDuration)
    (hzero : l.length < N → Sub newest.Instant zeroTime > d) :
    ∃ w r, pushAll (freshWatcher log interval N) l = Except.ok w ∧
      Mean w now d = Except.ok r ∧ r.NuSamples = l.length ∧
      r.TimeFrame = newest.Instant - oldest.Instant := by
  obtain ⟨w, tr, hw, -, -, hm⟩ := Mean_after_pushes N log interval l newest now d hlast hkN
    hts (fun h _ => hzero h)
  obtain ⟨rest, hrest⟩ : ∃ rest, l = oldest :: rest := by
    cases l with
    | nil => simp at hfirst
    | cons x rest =>
      simp only [List.head?_cons, Option.some.injEq] at hfirst
      exact ⟨rest, by rw [hfirst]⟩
  have hnew := instant_le_newest l newest hlast hts
  have hold : ∀ s ∈ l, oldest.Instant ≤ s.Instant := by
    intro s hs
    rw [hrest, List.map_cons, List.pairwise_cons] at hts
    rw [hrest] at hs
    rcases List.mem_cons.mp hs with h | h
    · rw [h]
    · exact le_of_lt (hts.1 s.Instant (List.mem_map_of_mem _ h))
  have hall : ∀ s ∈ l, Sub newest.Instant s.Instant ≤ d := by
    intro s hs
    have h1 := Sub_le newest.Instant s.Instant (hnew s hs)
    have h2 := hold s hs
    omega
  have hwin := window_all l newest.Instant d hall
  refine ⟨w, _, hw, Mean_of_MeanT w now d _ tr hm, ?_, ?_⟩
  · show (window l newest.Instant d).length = l.length
    rw [hwin, List.length_reverse]
  · show Sub newest.Instant ((window l newest.Instant d).foldl (fun _ s => s.Instant) zeroTime)
      = newest.Instant - oldest.Instant
    rw [hwin, hrest, List.reverse_cons, List.foldl_append]
    simp only [List.foldl_cons, List.foldl_nil]
    have h1 : oldest.Instant ≤ newest.Instant := hnew oldest (by rw [hrest]; simp)
    apply Sub_exact
    · simp only [minDuration]; omega
    · omega

theorem Mean_full_history_witness :
    ∃ w r, pushAll (freshWatcher none 1000000000 10) [tick 1, tick 2, tick 3] = Except.ok w ∧
      Mean w 0 2000000000 = Except.ok r ∧ r.NuSamples = 3 ∧
      r.TimeFrame = 2000000000 := by
  obtain ⟨w, r, hw, hr, hnu, htf⟩ := Mean_full_history 10 (by decide) none 1000000000
    [tick 1, tick 2, tick 3] (tick 3) (tick 1) 0 2000000000 rfl rfl (by decide) (by decide)
    (by decide) (by decide) (by decide)
  exact ⟨w, r, hw, hr, hnu, by rw [htf]; decide⟩

/-- Remark on the hypothesis of `Mean_zero_window` below: a sample stamped with the
zero `time.Time` itself, a stamp that no reading of `time.Now()` yields, pushed alone
into a fresh buffer of capacity 2 is at distance 0 from the never-written slot, and
`Mean(0)` folds both. -/
theorem Mean_zero_window_counts_unwritten_slot :
    ∃ w r, pushAll (freshWatcher none 1000000000 2)
        [({ Instant := zeroTime, Current := 5, Voltage := 1000000, Power := 5 } :
          Sample ℚ)] = Except.ok w ∧
      Mean w 1 0 = Except.ok r ∧ r.NuSamples = 2 ∧ r.NuSamples ≠ 1 ∧
      r.Current = 5 / 2 ∧ r.Current ≠ 5 := by
  refine ⟨_, _, rfl, rfl, rfl, by decide, ?_, ?_⟩
  · show ((0 : ℚ) + 5 + 0) / ((2 : Nat) : ℚ) = 5 / 2
    norm_num
  · show ((0 : ℚ) + 5 + 0) / ((2 : Nat) : ℚ) ≠ 5
    norm_num

/-- C8: after a non-empty run of pushes with strictly increasing timestamps into a
fresh buffer of capacity `N >= 2`, the timestamps being readings of `time.Now()` (of
which the proof needs only that a sample pushed alone is stamped later than the zero
`time.Time`), `Mean(0)` returns `NuSamples = 1`, `TimeFrame = 0`, and as `Current`,
`Voltage` and `Power` what the code computes from the sample pushed last alone, its
value added to 0 and divided by 1: the value itself in every carrier where that
returns the number, as it does for the numbers of `float64`. -/
theorem Mean_zero_window {α : Type} [Zero α] [Add α] [Div α] [NatCast α]
    (N : Nat) (hN : 2 ≤ N) (log : Option (Writer α)) (interval : Int)
    (l : List (Sample α)) (newest : Sample α) (now : Int)
    (hlast : l.getLast? = some newest) (hkN : l.length ≤ N)
    (hts : (l.map (fun s => s.Instant)).Pairwise (fun a b => a < b))
    (hone : l.length = 1 → zeroTime < newest.Instant) :
    ∃ w r, pushAll (freshWatcher log interval N) l = Except.ok w ∧
      Mean w now 0 = Except.ok r ∧ r.NuSamples = 1 ∧ r.TimeFrame = 0 ∧
      r.Current = (0 + newest.Current) / ((1 : Nat) : α) ∧
      r.Voltage = (0 + newest.Voltage) / ((1 : Nat) : α) ∧
      r.Power = (0 + newest.Power) / ((1 : Nat) : α) ∧
      ((∀ x : α, (0 + x) / ((1 : Nat) : α) = x) →
        r.Current = newest.Current ∧ r.Voltage = newest.Voltage ∧
        r.Power = newest.Power) := by
  obtain ⟨init, hinit⟩ : ∃ init, l = init ++ [newest] := by
    rw [List.getLast?_eq_some_iff] at hlast
    exact hlast
  have holder : ∀ s ∈ init, 0 < Sub newest.Instant s.Instant := by
    intro s hs
    rw [hinit, List.pairwise_map, List.pairwise_append] at hts
    exact Sub_pos _ _ (hts.2.2 s hs newest (List.mem_singleton_self newest))
  have hzero : l.length < N → (∀ s ∈ l, Sub newest.Instant s.Instant ≤ 0) →
      Sub newest.Instant zeroTime > 0 := by
    intro _ hall
    apply Sub_pos
    apply hone
    cases init with
    | nil => rw [hinit]; rfl
    | cons s init =>
      have h1 := holder s (List.mem_cons_self s init)
      have h2 := hall s (by rw [hinit]; simp)
      omega
  obtain ⟨w, tr, hw, -, -, hm⟩ := Mean_after_pushes N log interval l newest now 0 hlast hkN
    hts hzero
  have hwin : window l newest.Instant 0 = [newest] := by
    unfold window
    rw [hinit, List.reverse_append, List.reverse_singleton, List.singleton_append,
      List.filter_cons_of_pos (by simp [inWindow, Sub_self]), List.filter_eq_nil_iff.mpr]
    intro s hs
    have := holder s (List.mem_reverse.mp hs)
    simp only [inWindow, decide_eq_true_eq]
    omega
  rw [hwin] at hm
  have hC : mean [newest.Current] = (0 + newest.Current) / ((1 : Nat) : α) := rfl
  have hV : mean [newest.Voltage] = (0 + newest.Voltage) / ((1 : Nat) : α) := rfl
  have hP : mean [newest.Power] = (0 + newest.Power) / ((1 : Nat) : α) := rfl
  refine ⟨w, _, hw, Mean_of_MeanT w now 0 _ tr hm, rfl, ?_, hC, hV, hP, ?_⟩
  · show Sub newest.Instant newest.Instant = 0
    exact Sub_self _
  · intro hlaw
    refine ⟨?_, ?_, ?_⟩
    · show mean [newest.Current] = newest.Current
      rw [hC, hlaw]
    · show mean [newest.Voltage] = newest.Voltage
      rw [hV, hlaw]
    · show mean [newest.Power] = newest.Power
      rw [hP, hlaw]

theorem Mean_zero_window_witness :
    ∃ w r, pushAll (freshWatcher none 1000000000 10) [reading 1] = Except.ok w ∧
      Mean w 63929347202000000000 0 = Except.ok r ∧ r.NuSamples = 1 ∧
      r.TimeFrame = 0 ∧ r.Current = 1 := by
  obtain ⟨w, r, hw, hr, hnu, htf, -, -, -, hlaw⟩ := Mean_zero_window 10 (by decide) none
    1000000000 [reading 1] (reading 1) 63929347202000000000 rfl (by decide) (by decide)
    (fun _ => by decide)
  refine ⟨w, r, hw, hr, hnu, htf, ?_⟩
  rw [(hlaw (fun x => by simp)).1]
  simp [reading]

/-- C9: on a freshly constructed Watcher, whatever its capacity, and for every
duration, `Mean` returns the zero `Result` (`NuSamples = 0`, zero means, zero
`TimeFrame`), having read no slot and evaluated no division. -/
theorem Mean_fresh_is_zero {α : Type} [Zero α] [Add α] [Div α] [NatCast α]
    (N : Nat) (log : Option (Writer α)) (interval now d : Int) :
    MeanT (freshWatcher log interval N) now d =
      Except.ok (Result.zero, { reads := [], divs := [] }) ∧
    Mean (freshWatcher log interval N) now d =
      Except.ok { Instant := zeroTime, Current := 0, Voltage := 0, Power := 0,
                  TimeFrame := 0, NuSamples := 0 } := by
  constructor <;> rfl

/-- C10 (what the code does): on a Watcher whose cursor is inside `[1, N]` and for
every negative duration, `Mean` folds no sample and has no guarded branch for it:
it evaluates its three divisions with the divisor `nu = 0`. -/
theorem Mean_negative_duration_divides_by_zero {α : Type} [Zero α] [Add α] [Div α]
    [NatCast α] (w : Watcher α) (now d : Int) (h0 : 1 ≤ w.index)
    (h1 : w.index ≤ w.samples.length) (hd : d < 0) :
    ∃ r tr, MeanT w now d = Except.ok (r, tr) ∧ r.NuSamples = 0 ∧
      tr.divs = [0, 0, 0] ∧ r.Current = 0 / ((0 : Nat) : α) ∧
      r.Voltage = 0 / ((0 : Nat) : α) ∧ r.Power = 0 / ((0 : Nat) : α) := by
  obtain ⟨first, hfirst⟩ := slot_some w.samples (w.index - 1) (by omega) (by omega)
  have hst := meanLoop_break_window w.samples d first.Instant w.samples.length
    { sumA := (0 : α), sumV := 0, sumW := 0, lastSample := zeroTime, nu := 0,
      i := w.index - 1, reads := [w.index - 1] } first hfirst
    (by rw [Sub_self]; omega)
  exact ⟨_, _, MeanT_eq w now d first _ (by omega) hfirst hst, rfl, rfl, rfl, rfl, rfl⟩

theorem Mean_negative_duration_divides_by_zero_witness :
    ∃ w r tr, pushAll (freshWatcher none 1000000000 2) [tick 1] = Except.ok w ∧
      MeanT w 0 (-1) = Except.ok (r, tr) ∧ r.NuSamples = 0 ∧ tr.divs = [0, 0, 0] := by
  obtain ⟨w, hw, hs, hi⟩ := pushAll_fresh 2 none 1000000000 [tick 1] (by decide)
  obtain ⟨r, tr, hm, hnu, hdivs, -⟩ := Mean_negative_duration_divides_by_zero w 0 (-1)
    (by rw [hi]; decide) (by rw [hi, hs]; decide) (by decide)
  exact ⟨w, r, tr, hw, hm, hnu, hdivs⟩

/-! ## Construction, the one-shot reads and the walk in arbitrary states -/

theorem MeanT_cases {α : Type} [Zero α] [Add α] [Div α] [NatCast α] (w : Watcher α)
    (now d : Int) :
    (w.index - 1 < 0 ∧
      MeanT w now d = Except.ok (Result.zero, { reads := [], divs := [] })) ∨
    (0 ≤ w.index - 1 ∧ ∃ e, ∀ now', MeanT w now' d = Except.error e) ∨
    (0 ≤ w.index - 1 ∧ ∃ first st, slot w.samples (w.index - 1) = some first ∧
      meanLoop w.samples d first.Instant (w.samples.length + 1)
        { sumA := 0, sumV := 0, sumW := 0, lastSample := zeroTime, nu := 0,
          i := w.index - 1, reads := [w.index - 1] } = Except.ok st) := by
  by_cases hi : w.index - 1 < 0
  · left
    refine ⟨hi, ?_⟩
    unfold MeanT
    simp only [if_pos hi]
  · right
    cases hfirst : slot w.samples (w.index - 1) with
    | none =>
      left
      refine ⟨by omega, Fault.indexOutOfRange, ?_⟩
      intro now'
      unfold MeanT
      simp only [if_neg hi, hfirst]
    | some first =>
      cases hst : meanLoop w.samples d first.Instant (w.samples.length + 1)
          { sumA := 0, sumV := 0, sumW := 0, lastSample := zeroTime, nu := 0,
            i := w.index - 1, reads := [w.index - 1] } with
      | error e =>
        left
        refine ⟨by omega, e, ?_⟩
        intro now'
        unfold MeanT
        simp only [if_neg hi, hfirst, hst]
      | ok st =>
        right
        exact ⟨by omega, first, st, rfl, hst⟩

theorem newWatcherBuffer_ok {α : Type} [Zero α] (mem : Nat → Bool) (log : Writer α)
    (interval maxTime : Int) (w : Watcher α)
    (h : newWatcherBuffer mem log interval maxTime = Except.ok w) :
    w = freshWatcher (some log) interval (divDuration maxTime interval).toNat ∧
    2 ≤ divDuration maxTime interval ∧
    sampleSize * (divDuration maxTime interval).toNat ≤ maxAlloc ∧
    mem (sampleSize * (divDuration maxTime interval).toNat) = true := by
  unfold newWatcherBuffer makeSamples at h
  by_cases h1 : interval = 0
  · rw [if_pos h1] at h
    cases h
  rw [if_neg h1] at h
  by_cases h2 : divDuration maxTime interval < 2
  · simp only [if_pos h2] at h
    cases h
  by_cases h3 : sampleSize * (divDuration maxTime interval).toNat > maxAlloc
  · simp only [if_neg h2, if_pos h3] at h
    cases h
  by_cases h4 : mem (sampleSize * (divDuration maxTime interval).toNat) = true
  · simp only [if_neg h2, if_neg h3, if_pos h4, Except.ok.injEq] at h
    exact ⟨h.symm, by omega, by omega, h4⟩
  · simp only [if_neg h2, if_neg h3, if_neg h4] at h
    cases h

theorem newWatcherBuffer_eq {α : Type} [Zero α] (mem : Nat → Bool) (log : Writer α)
    (interval maxTime : Int) (h0 : interval ≠ 0) (h2 : 2 ≤ divDuration maxTime interval)
    (hsize : sampleSize * (divDuration maxTime interval).toNat ≤ maxAlloc)
    (hmem : mem (sampleSize * (divDuration maxTime interval).toNat) = true) :
    newWatcherBuffer mem log interval maxTime =
      Except.ok (freshWatcher (some log) interval (divDuration maxTime interval).toNat) := by
  unfold newWatcherBuffer makeSamples
  rw [if_neg h0]
  simp only [if_neg (not_lt.mpr h2), if_neg (not_lt.mpr hsize), hmem, if_true]
  rfl

theorem meanLoopM_eq {α : Type} [Add α] (d start : Int) :
    ∀ (fuel : Nat) (w : Watcher α) (st : Walk α),
      meanLoopM d start fuel w st = (meanLoop w.samples d start fuel st, w) := by
  intro fuel
  induction fuel with
  | zero => intro w st; rfl
  | succ fuel ih =>
    intro w st
    simp only [meanLoopM, meanLoop]
    cases slot w.samples st.i with
    | none => rfl
    | some x =>
      simp only
      by_cases hw : Sub start x.Instant > d
      · simp only [if_pos hw]
      · by_cases hcap : st.nu ≥ w.samples.length
        · simp only [if_neg hw, if_pos hcap]
        · simp only [if_neg hw, if_neg hcap]
          exact ih w _

theorem MeanM_eq {α : Type} [Zero α] [Add α] [Div α] [NatCast α] (w : Watcher α)
    (now d : Int) : MeanM w now d = (MeanT w now d, w) := by
  unfold MeanM MeanT
  by_cases hi : w.index - 1 < 0
  · simp only [if_pos hi]
  · simp only [if_neg hi]
    cases slot w.samples (w.index - 1) with
    | none => rfl
    | some first =>
      simp only [meanLoopM_eq]
      cases meanLoop w.samples d first.Instant (w.samples.length + 1)
          { sumA := 0, sumV := 0, sumW := 0, lastSample := zeroTime, nu := 0,
            i := w.index - 1, reads := [w.index - 1] } with
      | error e => rfl
      | ok st => rfl

theorem divDuration_floor (x y : Int) (hy : 0 < y) (hx : 0 ≤ x) :
    divDuration x y = x / y ∧ y * (x / y) ≤ x ∧ x < y * (x / y + 1) := by
  refine ⟨?_, Int.mul_ediv_self_le (by omega), ?_⟩
  · unfold divDuration
    rw [if_neg (by omega), Int.tdiv_eq_ediv hx (le_of_lt hy)]
  · have := Int.lt_mul_ediv_self_add (x := x) hy
    rw [mul_add, mul_one]
    exact this

theorem pushAll_nilFile {α : Type} (l : List (Sample α)) :
    ∀ (w w' : Watcher α), w.log = some Writer.nilFile → pushAll w l = Except.ok w' →
      w'.log = some Writer.nilFile := by
  induction l with
  | nil =>
    intro w w' hlog h
    simp only [pushAll] at h
    cases h
    exact hlog
  | cons s rest ih =>
    intro w w' hlog h
    simp only [pushAll] at h
    cases ha : addSample w s with
    | error e => rw [ha] at h; cases h
    | ok w1 =>
      rw [ha] at h
      refine ih w1 w' ?_ h
      unfold addSample at ha
      split_ifs at ha
      simp only [Except.ok.injEq] at ha
      rw [← ha]
      simp only [hlog, Option.map_some', Writer.fprintf]

theorem slot_range {α : Type} (samples : List (Sample α)) (i : Int) (x : Sample α)
    (h : slot samples i = some x) : 0 ≤ i ∧ i < samples.length := by
  unfold slot at h
  split_ifs at h with hneg
  have := (List.getElem?_eq_some_iff.mp h).1
  omega

theorem meanLoop_none {α : Type} [Add α] (samples : List (Sample α))
    (d start : Int) (fuel : Nat) (st : Walk α) (hx : slot samples st.i = none) :
    meanLoop samples d start (fuel + 1) st = Except.error Fault.indexOutOfRange := by
  simp only [meanLoop, hx]

/-- A larger iteration budget does not change what the loop of `Mean` returns. -/
theorem meanLoop_fuel_mono {α : Type} [Add α] (samples : List (Sample α))
    (d start : Int) :
    ∀ (fuel : Nat) (st st' : Walk α), meanLoop samples d start fuel st = Except.ok st' →
      ∀ k, meanLoop samples d start (fuel + k) st = Except.ok st' := by
  intro fuel
  induction fuel with
  | zero =>
    intro st st' h
    simp only [meanLoop] at h
    cases h
  | succ fuel ih =>
    intro st st' h k
    have hk : fuel + 1 + k = (fuel + k) + 1 := by omega
    rw [hk]
    cases hx : slot samples st.i with
    | none =>
      rw [meanLoop_none samples d start fuel st hx] at h
      cases h
    | some x =>
      by_cases hw : Sub start x.Instant > d
      · rw [meanLoop_break_window samples d start fuel st x hx hw] at h
        rw [meanLoop_break_window samples d start (fuel + k) st x hx hw]
        exact h
      by_cases hcap : st.nu ≥ samples.length
      · rw [meanLoop_break_cap samples d start fuel st x hx hcap] at h
        rw [meanLoop_break_cap samples d start (fuel + k) st x hx hcap]
        exact h
      rw [meanLoop_fold samples d start fuel st x hx hw hcap] at h
      rw [meanLoop_fold samples d start (fuel + k) st x hx hw hcap]
      exact ih _ st' h k

/-- What the loop of `Mean` keeps about its last fold: when it returns, it has read
`nu + 2` slots (the start slot, one per fold, the slot it broke on), and if it
folded at all, `lastSample` is the `Instant` of the slot of the last fold, which
lies in the window. -/
theorem meanLoop_last_fold {α : Type} [Add α] (samples : List (Sample α))
    (d start : Int) :
    ∀ (fuel : Nat) (st st' : Walk α), st.reads.length = st.nu + 1 →
      (1 ≤ st.nu → ∃ j x, st.reads[st.nu]? = some j ∧ slot samples j = some x ∧
        st.lastSample = x.Instant ∧ Sub start x.Instant ≤ d) →
      meanLoop samples d start fuel st = Except.ok st' →
      st'.reads.length = st'.nu + 2 ∧
      (1 ≤ st'.nu → ∃ j x, st'.reads[st'.nu]? = some j ∧ slot samples j = some x ∧
        st'.lastSample = x.Instant ∧ Sub start x.Instant ≤ d) := by
  intro fuel
  induction fuel with
  | zero =>
    intro st st' _ _ h
    simp only [meanLoop] at h
    cases h
  | succ fuel ih =>
    intro st st' hlen hlast h
    have hbreak : st' = { st with reads := st.reads ++ [st.i] } →
        st'.reads.length = st'.nu + 2 ∧
        (1 ≤ st'.nu → ∃ j x, st'.reads[st'.nu]? = some j ∧ slot samples j = some x ∧
          st'.lastSample = x.Instant ∧ Sub start x.Instant ≤ d) := by
      intro heq
      subst heq
      refine ⟨by simp only [List.length_append, List.length_singleton]; omega, ?_⟩
      intro hnu
      obtain ⟨j, x, hj, hx, hl, hw⟩ := hlast hnu
      refine ⟨j, x, ?_, hx, hl, hw⟩
      simp only
      rw [List.getElem?_append_left (by omega)]
      exact hj
    cases hx : slot samples st.i with
    | none =>
      rw [meanLoop_none samples d start fuel st hx] at h
      cases h
    | some x =>
      by_cases hw : Sub start x.Instant > d
      · rw [meanLoop_break_window samples d start fuel st x hx hw] at h
        exact hbreak (Except.ok.inj h).symm
      by_cases hcap : st.nu ≥ samples.length
      · rw [meanLoop_break_cap samples d start fuel st x hx hcap] at h
        exact hbreak (Except.ok.inj h).symm
      rw [meanLoop_fold samples d start fuel st x hx hw hcap] at h
      refine ih (st.fold samples.length x) st' ?_ ?_ h
      · simp only [Walk.fold, List.length_append, List.length_singleton]
        omega
      · intro _
        refine ⟨st.i, x, ?_, hx, rfl, by omega⟩
        simp only [Walk.fold]
        rw [List.getElem?_append_right (by omega)]
        simp [hlen]

/-- The walk bounded by the lap check and the loop of `Mean` run in lockstep: after
`nu` folds from the slot `origin` the index is `origin - nu` modulo the capacity, so
it is back at `origin` exactly when `nu` has reached the capacity. -/
theorem meanLoopLap_eq {α : Type} [Add α] (samples : List (Sample α))
    (d start origin : Int) (h0 : 0 ≤ origin) (h1 : origin < samples.length) :
    ∀ (fuel : Nat) (st : Walk α), st.nu ≤ samples.length →
      st.i = (if (st.nu : Int) ≤ origin then origin - st.nu
        else origin - st.nu + samples.length) →
      meanLoopLap samples d start origin fuel st = meanLoop samples d start fuel st := by
  intro fuel
  induction fuel with
  | zero => intro st _ _; rfl
  | succ fuel ih =>
    intro st hnu hi
    have hcond : (0 < st.nu ∧ st.i = origin) ↔ st.nu ≥ samples.length := by
      rw [hi]
      split_ifs <;> constructor <;> intro h <;> omega
    simp only [meanLoopLap, meanLoop]
    cases hx : slot samples st.i with
    | none => rfl
    | some x =>
      simp only
      by_cases hw : Sub start x.Instant > d
      · simp only [if_pos hw]
      · simp only [if_neg hw]
        by_cases hcap : st.nu ≥ samples.length
        · simp only [if_pos hcap, if_pos (hcond.mpr hcap)]
        · simp only [if_neg hcap, if_neg (fun h => hcap (hcond.mp h))]
          apply ih
          · simp only; omega
          · simp only
            rw [hi]
            push_cast
            split_ifs <;> omega

theorem MeanLapT_eq_MeanT {α : Type} [Zero α] [Add α] [Div α] [NatCast α]
    (w : Watcher α) (now d : Int) : MeanLapT w now d = MeanT w now d := by
  unfold MeanLapT MeanT
  by_cases hi : w.index - 1 < 0
  · simp only [if_pos hi]
  · simp only [if_neg hi]
    cases hfirst : slot w.samples (w.index - 1) with
    | none => rfl
    | some first =>
      obtain ⟨h0, h1⟩ := slot_range w.samples (w.index - 1) first hfirst
      simp only
      rw [meanLoopLap_eq w.samples d first.Instant (w.index - 1) h0 h1
        (w.samples.length + 1) _ (by simp only; omega)
        (by simp only; rw [if_pos]; simp; simpa using h0)]

theorem Sub_nonneg (t u : Int) (h : u ≤ t) : 0 ≤ Sub t u := by
  unfold Sub
  simp only [maxDuration, minDuration]
  split_ifs <;> omega

theorem slot_mem {α : Type} (samples : List (Sample α)) (i : Int) (x : Sample α)
    (h : slot samples i = some x) : x ∈ samples := by
  unfold slot at h
  split_ifs at h
  obtain ⟨hlt, heq⟩ := List.getElem?_eq_some_iff.mp h
  rw [← heq]
  exact List.getElem_mem hlt

theorem instant_le_last {α : Type} (l : List (Sample α)) (newest : Sample α)
    (hlast : l.getLast? = some newest)
    (hts : (l.map (fun s => s.Instant)).Pairwise (fun a b => a ≤ b)) :
    ∀ s ∈ l, s.Instant ≤ newest.Instant := by
  rw [List.getLast?_eq_some_iff] at hlast
  obtain ⟨init, rfl⟩ := hlast
  rw [List.pairwise_map, List.pairwise_append] at hts
  intro s hs
  rcases List.mem_append.mp hs with h | h
  · exact hts.2.2 s h newest (List.mem_singleton_self newest)
  · rw [List.mem_singleton] at h
    rw [h]

/-- With the cursor in `[1, N]` and a duration that is not negative, the first
iteration of `Mean` folds the slot before the cursor, whatever the slots hold. -/
theorem MeanT_folds_first {α : Type} [Zero α] [Add α] [Div α] [NatCast α]
    (w : Watcher α) (now d : Int) (first : Sample α) (h0 : 1 ≤ w.index)
    (h1 : w.index ≤ w.samples.length)
    (hfirst : slot w.samples (w.index - 1) = some first) (hd : 0 ≤ d) :
    ∃ r tr, MeanT w now d = Except.ok (r, tr) ∧ 1 ≤ r.NuSamples ∧
      r.NuSamples ≤ w.samples.length ∧
      tr.divs = [r.NuSamples, r.NuSamples, r.NuSamples] ∧
      tr.reads[1]? = some (w.index - 1) := by
  have hw : ¬ Sub first.Instant first.Instant > d := by rw [Sub_self]; omega
  have hcap : ¬ (0 : Nat) ≥ w.samples.length := by omega
  have hstep := meanLoop_fold w.samples d first.Instant w.samples.length
    { sumA := (0 : α), sumV := 0, sumW := 0, lastSample := zeroTime, nu := 0,
      i := w.index - 1, reads := [w.index - 1] } first hfirst hw hcap
  obtain ⟨st, hst, hnu1, hnu2, more, hmore, -⟩ := meanLoop_total w.samples d first.Instant
    w.samples.length
    (Walk.fold
      { sumA := (0 : α), sumV := 0, sumW := 0, lastSample := zeroTime, nu := 0,
        i := w.index - 1, reads := [w.index - 1] } w.samples.length first)
    (by simp only [Walk.fold]; split_ifs <;> omega)
    (by simp only [Walk.fold]; split_ifs <;> omega)
    (by simp only [Walk.fold]; omega) (by simp only [Walk.fold]; omega)
  rw [← hstep] at hst
  refine ⟨_, _, MeanT_eq w now d first st (by omega) hfirst hst, ?_, hnu2, rfl, ?_⟩
  · simp only [Walk.fold] at hnu1
    show 1 ≤ st.nu
    omega
  · show st.reads[1]? = some (w.index - 1)
    rw [hmore]
    simp [Walk.fold]

theorem meanLoop_last_fold_start {α : Type} [Zero α] [Add α]
    (samples : List (Sample α)) (d start : Int) (fuel : Nat) (i : Int) (st : Walk α)
    (hst : meanLoop samples d start fuel
      { sumA := 0, sumV := 0, sumW := 0, lastSample := zeroTime, nu := 0, i := i,
        reads := [i] } = Except.ok st) :
    st.reads.length = st.nu + 2 ∧
    (1 ≤ st.nu → ∃ j x, st.reads[st.nu]? = some j ∧ slot samples j = some x ∧
      st.lastSample = x.Instant ∧ Sub start x.Instant ≤ d) := by
  refine meanLoop_last_fold samples d start fuel _ st ?_ ?_ hst
  · rfl
  · intro h
    simp at h

/-! ## The claims on `Mean` as a query, construction and the one-shot reads -/

/-- C11 (as stated, refuted): on the state after one push into a fresh buffer of
capacity 2, two calls of `Mean(0)` with nothing in between, the first at clock
reading 1 and the second at clock reading 2 on the state the first left, return
Results that are not identical: they differ in `Instant`. -/
theorem Mean_twice_differs_in_Instant :
    ∃ w r1 tr1 r2 tr2,
      pushAll (freshWatcher none 1000000000 2) [tick 1] = Except.ok w ∧
      MeanM w 1 0 = (Except.ok (r1, tr1), w) ∧
      MeanM (MeanM w 1 0).2 2 0 = (Except.ok (r2, tr2), w) ∧
      r1.Instant = 1 ∧ r2.Instant = 2 ∧ r1 ≠ r2 := by
  refine ⟨_, _, _, _, _, rfl, rfl, rfl, rfl, rfl, ?_⟩
  intro h
  have h2 := congrArg (fun r => r.Instant) h
  exact absurd h2 (by decide)

/-- C11 (amended): `Mean` is a read-only query, deterministic but for its time
stamp. In every Watcher state the statements of its body leave the Watcher as it
was, `samples` and `index` included, whether the call returns or panics. A second
call with the same duration, made on the state the first call left, panics alike or
returns a Result that agrees with the first in `Current`, `Voltage`, `Power`,
`TimeFrame` and `NuSamples` (and reads the same slots). `Instant` is the zero
`time.Time` on the early return of an empty buffer and the clock reading
`time.Now()` of the call otherwise, so the two Results are identical exactly when
the cursor is 0 or the clock reads the same in both calls. -/
theorem Mean_read_only_deterministic {α : Type} [Zero α] [Add α] [Div α] [NatCast α]
    (w : Watcher α) (now1 now2 d : Int) :
    ((MeanM w now1 d).2 = w ∧ (MeanM w now1 d).2.samples = w.samples ∧
      (MeanM w now1 d).2.index = w.index) ∧
    (MeanM w now1 d).1 = MeanT w now1 d ∧
    ((∃ e, (MeanM w now1 d).1 = Except.error e ∧
        (MeanM (MeanM w now1 d).2 now2 d).1 = Except.error e) ∨
     (∃ r1 r2 tr, (MeanM w now1 d).1 = Except.ok (r1, tr) ∧
        (MeanM (MeanM w now1 d).2 now2 d).1 = Except.ok (r2, tr) ∧
        r1.Current = r2.Current ∧ r1.Voltage = r2.Voltage ∧ r1.Power = r2.Power ∧
        r1.TimeFrame = r2.TimeFrame ∧ r1.NuSamples = r2.NuSamples ∧
        r1.Instant = (if w.index - 1 < 0 then zeroTime else now1) ∧
        r2.Instant = (if w.index - 1 < 0 then zeroTime else now2) ∧
        (r1 = r2 ↔ (w.index - 1 < 0 ∨ now1 = now2)))) := by
  have hstate : (MeanM w now1 d).2 = w := by rw [MeanM_eq]
  refine ⟨⟨hstate, by rw [hstate], by rw [hstate]⟩, by rw [MeanM_eq], ?_⟩
  rw [hstate]
  simp only [MeanM_eq]
  rcases MeanT_cases w now1 d with ⟨hi, _⟩ | ⟨_, e, he⟩ | ⟨hi, first, st, hfirst, hst⟩
  · right
    refine ⟨Result.zero, Result.zero, { reads := [], divs := [] }, ?_, ?_, rfl, rfl, rfl,
      rfl, rfl, ?_, ?_, ?_⟩
    · simp only [MeanT, if_pos hi]
    · simp only [MeanT, if_pos hi]
    · rw [if_pos hi]; rfl
    · rw [if_pos hi]; rfl
    · exact ⟨fun _ => Or.inl hi, fun _ => rfl⟩
  · left
    exact ⟨e, he now1, he now2⟩
  · right
    have hneg : ¬ (w.index - 1 < 0) := by omega
    refine ⟨_, _, _, MeanT_eq w now1 d first st hi hfirst hst,
      MeanT_eq w now2 d first st hi hfirst hst, rfl, rfl, rfl, rfl, rfl, ?_, ?_, ?_⟩
    · rw [if_neg hneg]
    · rw [if_neg hneg]
    · constructor
      · intro h
        right
        exact congrArg (fun r => r.Instant) h
      · intro h
        rcases h with h | h
        · exact absurd h hneg
        · rw [h]

theorem Mean_read_only_deterministic_witness :
    (MeanM (freshWatcher none 1000000000 2 : Watcher ℚ) 12345 7).2 =
      freshWatcher none 1000000000 2 ∧
    (MeanM (freshWatcher none 1000000000 2 : Watcher ℚ) 12345 7).1 =
      Except.ok (Result.zero, { reads := [], divs := [] }) :=
  ⟨(Mean_read_only_deterministic (freshWatcher none 1000000000 2) 12345 54321 7).1.1,
   rfl⟩

theorem makeSamples_too_large {α : Type} [Zero α] (mem : Nat → Bool) (n : Nat)
    (h : sampleSize * n > maxAlloc) :
    (makeSamples mem n : Except Fault (List (Sample α))) =
      Except.error Fault.makeslice := by
  unfold makeSamples
  rw [if_pos h]

/-- C12 (as stated, refuted): `tickInterval` = 1 ns and `maxWindow` = 10^13 ns (2 h
46 min 40 s), with a log file name so that no file is opened. The quotient 10^13 is
at least 2, yet `NewWatcher` returns no Watcher: the 48 * 10^13 bytes of the buffer
exceed `maxAlloc` = 2^48 and `make` panics with "makeslice: len out of range". -/
theorem NewWatcher_huge_window_panics :
    (0 : Int) < 1 ∧ (0 : Int) ≤ 10000000000000 ∧
    (2 : Int) ≤ 10000000000000 / 1 ∧
    (NewWatcher (fun _ => true) (fun _ => true) "power.log" 1 10000000000000 :
      Except Fault (Watcher ℚ)) = Except.error Fault.makeslice :=
  ⟨by decide, by decide, by decide, rfl⟩

/-- C12 (amended): for every `tickInterval > 0` and `maxWindow >= 0`, with `q` the
quotient `maxWindow / tickInterval` rounded down, `NewWatcher` panics when `q < 2`
(with "buffer is too small" once the log file is settled). When `q >= 2` and opening
the log file does not fail, it returns a Watcher with exactly `q` zero-valued slots
and `index` 0 if the runtime can allocate the buffer (its `48 * q` bytes do not
exceed `maxAlloc` and the heap has room for them), and panics with "makeslice: len
out of range" if the `48 * q` bytes exceed `maxAlloc`. -/
theorem NewWatcher_capacity {α : Type} [Zero α] (openFile : String → Bool)
    (mem : Nat → Bool) (logfile : String) (interval maxTime : Int)
    (hi : 0 < interval) (hm : 0 ≤ maxTime) :
    (interval * (maxTime / interval) ≤ maxTime ∧
      maxTime < interval * (maxTime / interval + 1)) ∧
    (maxTime / interval < 2 →
      (∃ e, (NewWatcher openFile mem logfile interval maxTime :
        Except Fault (Watcher α)) = Except.error e) ∧
      ((logfile = "" → openFile logfile = true) →
        (NewWatcher openFile mem logfile interval maxTime : Except Fault (Watcher α)) =
          Except.error Fault.bufferTooSmall)) ∧
    (2 ≤ maxTime / interval → (logfile = "" → openFile logfile = true) →
      sampleSize * (maxTime / interval).toNat ≤ maxAlloc →
      mem (sampleSize * (maxTime / interval).toNat) = true →
      ∃ w : Watcher α, NewWatcher openFile mem logfile interval maxTime = Except.ok w ∧
        w.samples = List.replicate (maxTime / interval).toNat Sample.zero ∧
        (w.samples.length : Int) = maxTime / interval ∧ w.index = 0) ∧
    (2 ≤ maxTime / interval → (logfile = "" → openFile logfile = true) →
      sampleSize * (maxTime / interval).toNat > maxAlloc →
      (NewWatcher openFile mem logfile interval maxTime : Except Fault (Watcher α)) =
        Except.error Fault.makeslice) := by
  obtain ⟨hq, hfloor⟩ := divDuration_floor maxTime interval hi hm
  have hne : ¬ interval = 0 := by omega
  refine ⟨hfloor, ?_, ?_, ?_⟩
  · intro hsmall
    have hbody : ∀ log : Writer α, newWatcherBuffer mem log interval maxTime =
        Except.error Fault.bufferTooSmall := by
      intro log
      unfold newWatcherBuffer
      simp only [if_neg hne, hq, if_pos hsmall]
    constructor
    · unfold NewWatcher NewWatcherT
      split_ifs
      · exact ⟨_, hbody _⟩
      · exact ⟨_, rfl⟩
      · exact ⟨_, hbody _⟩
    · intro hopen
      unfold NewWatcher NewWatcherT
      split_ifs with h1 h2
      · exact hbody _
      · exact absurd (hopen h1) h2
      · exact hbody _
  · intro hbig hopen hsize hmem
    have hbody : ∀ log : Writer α, newWatcherBuffer mem log interval maxTime =
        Except.ok (freshWatcher (some log) interval (maxTime / interval).toNat) := by
      intro log
      rw [← hq]
      exact newWatcherBuffer_eq mem log interval maxTime hne (by rw [hq]; exact hbig)
        (by rw [hq]; exact hsize) (by rw [hq]; exact hmem)
    have hlen : (((List.replicate (maxTime / interval).toNat (Sample.zero : Sample α)).length
        : Nat) : Int) = maxTime / interval := by
      rw [List.length_replicate]
      omega
    unfold NewWatcher NewWatcherT
    split_ifs with h1 h2
    · exact ⟨_, hbody _, rfl, hlen, rfl⟩
    · exact absurd (hopen h1) h2
    · exact ⟨_, hbody _, rfl, hlen, rfl⟩
  · intro hbig hopen hsize
    have hbody : ∀ log : Writer α, newWatcherBuffer mem log interval maxTime =
        Except.error Fault.makeslice := by
      intro log
      unfold newWatcherBuffer
      simp only [if_neg hne, hq, if_neg (not_lt.mpr hbig),
        makeSamples_too_large mem _ hsize]
    unfold NewWatcher NewWatcherT
    split_ifs with h1 h2
    · exact hbody _
    · exact absurd (hopen h1) h2
    · exact hbody _

theorem NewWatcher_capacity_witness :
    (5000000000 : Int) / 5000000000 < 2 ∧
    (NewWatcher (fun _ => true) (fun _ => true) "power.log" 5000000000 5000000000 :
      Except Fault (Watcher ℚ)) = Except.error Fault.bufferTooSmall ∧
    ∃ w : Watcher ℚ, NewWatcher (fun _ => true) (fun _ => true) "power.log" 1000000000
        10000000000 = Except.ok w ∧ w.samples.length = 10 ∧ w.index = 0 := by
  refine ⟨by decide, ((NewWatcher_capacity (fun _ => true) (fun _ => true) "power.log"
    5000000000 5000000000 (by decide) (by decide)).2.1 (by decide)).2 (fun _ => rfl), ?_⟩
  obtain ⟨w, hw, hs, -, hidx⟩ := (@NewWatcher_capacity ℚ _ (fun _ => true)
    (fun _ => true) "power.log" 1000000000 10000000000 (by decide) (by decide)).2.2.1
    (by decide) (fun _ => rfl) (by decide) rfl
  exact ⟨w, hw, by rw [hs]; decide, hidx⟩

/-- C13: when both sensor reads succeed, with current `c` and voltage `v`, `GetNow`
returns no error and the Sample with `Current = c`, `Voltage = v` and
`Power = c * v / 1e6` (stamped with the clock reading), and `GetPowerNow` returns
exactly that `Power` and no error. -/
theorem GetNow_power {α : Type} [Zero α] [Mul α] [Div α] [NatCast α]
    (env : Sensors α) (c v : α) (hc : GetCurrentNow env = (c, none))
    (hv : GetVoltageNow env = (v, none)) :
    GetNow env = ({ Instant := env.now, Current := c, Voltage := v,
                    Power := c * v / ((1000000 : Nat) : α) }, none) ∧
    GetPowerNow env = (c * v / ((1000000 : Nat) : α), none) ∧
    (GetPowerNow env).1 = (GetNow env).1.Power := by
  have h : GetNow env =
      (Sample.mk env.now c v (c * v / ((1000000 : Nat) : α)), none) := by
    simp only [GetNow, GetNowT, hc, hv]
  refine ⟨h, ?_, ?_⟩
  · simp only [GetPowerNow, h]
  · simp only [GetPowerNow, h]

theorem GetNow_power_witness :
    GetCurrentNow demoSensors = (1500000, none) ∧
    GetVoltageNow demoSensors = (12000000, none) ∧
    GetPowerNow demoSensors = (1500000 * 12000000 / ((1000000 : Nat) : ℚ), none) :=
  ⟨by decide, by decide, (GetNow_power demoSensors 1500000 12000000 (by decide)
    (by decide)).2.1⟩

/-- C14: `GetNow` returns an error exactly when the current read or the voltage read
returns one. When the current read fails, `GetNow` returns that error with the zero
Sample after reading the current source only; when the current read succeeds and
the voltage read fails, it returns the error of the voltage read with the zero
Sample. -/
theorem GetNow_errors {α : Type} [Zero α] [Mul α] [Div α] [NatCast α]
    (env : Sensors α) :
    ((GetNow env).2 ≠ none ↔
      ((GetCurrentNow env).2 ≠ none ∨ (GetVoltageNow env).2 ≠ none)) ∧
    (∀ err, (GetCurrentNow env).2 = some err →
      GetNowT env = ((Sample.zero, some err), [currentPath])) ∧
    (∀ err, (GetCurrentNow env).2 = none → (GetVoltageNow env).2 = some err →
      GetNowT env = ((Sample.zero, some err), [currentPath, voltagePath])) := by
  rcases hc : GetCurrentNow env with ⟨c, _ | errc⟩
  · rcases hv : GetVoltageNow env with ⟨v, _ | errv⟩
    · refine ⟨?_, ?_, ?_⟩
      · simp [GetNow, GetNowT, hc, hv]
      · intro err h; simp at h
      · intro err _ h; simp at h
    · refine ⟨?_, ?_, ?_⟩
      · simp [GetNow, GetNowT, hc, hv]
      · intro err h; simp at h
      · intro err _ h
        simp only [Option.some.injEq] at h
        subst h
        simp only [GetNowT, hc, hv]
  · refine ⟨?_, ?_, ?_⟩
    · simp [GetNow, GetNowT, hc]
    · intro err h
      simp only [Option.some.injEq] at h
      subst h
      simp only [GetNowT, hc]
    · intro err h; simp at h

theorem GetNow_errors_witness :
    GetNowT brokenSensors =
      ((Sample.zero, some "no such file or directory"), [currentPath]) :=
  (GetNow_errors brokenSensors).2.1 "no such file or directory" (by decide)

/-- C15 (what the code does): the test on the log file name is inverted. Given a
log file name, `NewWatcher` calls `os.OpenFile` on nothing and stores a nil
`*os.File` in the `log` field, and no run of `addSample` calls appends a record;
given the empty name it calls `os.OpenFile` on the empty name, and construction
panics when that call fails. -/
theorem NewWatcher_log_test_inverted {α : Type} [Zero α] (openFile : String → Bool)
    (mem : Nat → Bool) (logfile : String) (interval maxTime : Int) :
    (logfile ≠ "" →
      (NewWatcherT openFile mem logfile interval maxTime :
        Except Fault (Watcher α) × List String).2 = [] ∧
      ∀ w : Watcher α, NewWatcher openFile mem logfile interval maxTime = Except.ok w →
        w.log = some Writer.nilFile ∧
        ∀ l w', pushAll w l = Except.ok w' → w'.log = some Writer.nilFile) ∧
    (logfile = "" →
      (NewWatcherT openFile mem logfile interval maxTime :
        Except Fault (Watcher α) × List String).2 = [""] ∧
      (openFile "" = false →
        (NewWatcher openFile mem logfile interval maxTime : Except Fault (Watcher α)) =
          Except.error Fault.must)) := by
  constructor
  · intro hname
    constructor
    · unfold NewWatcherT
      rw [if_neg hname]
    · intro w hw
      have hlog : w.log = some Writer.nilFile := by
        unfold NewWatcher NewWatcherT at hw
        rw [if_neg hname] at hw
        rw [(newWatcherBuffer_ok mem Writer.nilFile interval maxTime w hw).1]
        rfl
      exact ⟨hlog, fun l w' h => pushAll_nilFile l w w' hlog h⟩
  · intro hname
    subst hname
    constructor
    · unfold NewWatcherT
      rw [if_pos rfl]
      split_ifs <;> rfl
    · intro hfail
      unfold NewWatcher NewWatcherT
      rw [if_pos rfl, hfail]
      rfl

theorem NewWatcher_log_test_inverted_witness :
    (NewWatcherT (fun _ => true) (fun _ => true) "power.log" 1000000000 10000000000 :
      Except Fault (Watcher ℚ) × List String).2 = [] ∧
    (NewWatcher (fun _ => false) (fun _ => true) "" 1000000000 10000000000 :
      Except Fault (Watcher ℚ)) = Except.error Fault.must :=
  ⟨((NewWatcher_log_test_inverted (fun _ => true) (fun _ => true) "power.log" 1000000000
      10000000000).1 (by decide)).1,
   ((NewWatcher_log_test_inverted (fun _ => false) (fun _ => true) "" 1000000000
      10000000000).2 rfl).2 rfl⟩

/-- C16: for every buffer of capacity `N >= 2`, every cursor in `[1, N]`, arbitrary
slot contents and every duration, `Mean` returns: its walk folds at most `N` samples
(`NuSamples <= N`, in `NuSamples + 1` iterations), reads no slot outside `[0, N)`,
and a larger iteration budget changes nothing. -/
theorem Mean_walk_bounded {α : Type} [Zero α] [Add α] [Div α] [NatCast α]
    (w : Watcher α) (N : Nat) (hN : 2 ≤ N) (hlen : w.samples.length = N)
    (h0 : 1 ≤ w.index) (h1 : w.index ≤ N) (now d : Int) :
    ∃ r tr, MeanT w now d = Except.ok (r, tr) ∧ r.NuSamples ≤ N ∧
      tr.reads.length = r.NuSamples + 2 ∧
      (∀ j ∈ tr.reads, 0 ≤ j ∧ j < N) ∧
      ∃ first st, slot w.samples (w.index - 1) = some first ∧
        st.nu = r.NuSamples ∧
        ∀ k, meanLoop w.samples d first.Instant (N + 1 + k)
          { sumA := 0, sumV := 0, sumW := 0, lastSample := zeroTime, nu := 0,
            i := w.index - 1, reads := [w.index - 1] } = Except.ok st := by
  obtain ⟨first, hfirst⟩ := slot_some w.samples (w.index - 1) (by omega) (by omega)
  obtain ⟨st, hst, -, hnu2, more, hmore, hall⟩ := meanLoop_total w.samples d first.Instant
    (w.samples.length + 1)
    { sumA := (0 : α), sumV := 0, sumW := 0, lastSample := zeroTime, nu := 0,
      i := w.index - 1, reads := [w.index - 1] }
    (by simp only; omega) (by simp only; omega) (by simp only; omega) (by simp only; omega)
  obtain ⟨hreads, -⟩ := meanLoop_last_fold_start w.samples d first.Instant
    (w.samples.length + 1) (w.index - 1) st hst
  refine ⟨_, _, MeanT_eq w now d first st (by omega) hfirst hst, by rw [← hlen]; exact hnu2,
    hreads, ?_, first, st, hfirst, rfl, ?_⟩
  · intro j hj
    simp only [hmore] at hj
    rcases List.mem_append.mp hj with h | h
    · rw [List.mem_singleton] at h
      omega
    · have := hall j h
      omega
  · intro k
    rw [← hlen]
    exact meanLoop_fuel_mono w.samples d first.Instant _ _ st hst k

theorem Mean_walk_bounded_witness :
    ∃ r tr, MeanT shuffled 0 maxDuration = Except.ok (r, tr) ∧
      r.NuSamples ≤ 3 ∧ ∀ j ∈ tr.reads, 0 ≤ j ∧ j < 3 := by
  obtain ⟨r, tr, hm, hnu, -, hreads, -⟩ := Mean_walk_bounded shuffled 3 (by decide) rfl
    (by decide) (by decide) 0 maxDuration
  exact ⟨r, tr, hm, hnu, hreads⟩

/-- Remark on the hypothesis of `Mean_timeFrame` below: a sample stamped 1 ns before
the zero `time.Time`, a stamp that no reading of `time.Now()` yields, pushed alone
into a fresh buffer of capacity 2. `Mean(0)` folds it and the never-written slot,
and `TimeFrame` is -1 ns. -/
theorem Mean_timeFrame_negative :
    ∃ w r, pushAll (freshWatcher none 1000000000 2)
        [({ Instant := -1, Current := 5, Voltage := 1000000, Power := 5 } :
          Sample ℚ)] = Except.ok w ∧
      Mean w 1 0 = Except.ok r ∧ 1 ≤ r.NuSamples ∧ r.TimeFrame = -1 ∧
      ¬ (0 ≤ r.TimeFrame) :=
  ⟨_, _, rfl, rfl, by decide, rfl, by decide⟩

/-- C17: whenever `Mean` folds at least one sample, `TimeFrame` is
`newest.Instant.Sub(last.Instant)` for the sample `newest` before the cursor and the
sample `last` of the last fold, and `TimeFrame <= duration`. If the state was
reached from a fresh buffer by pushes with non-decreasing timestamps, the
timestamps being readings of `time.Now()` (of which the proof needs only that,
while the buffer is not yet full, the sample pushed last is not stamped earlier than
the zero `time.Time`), then also `TimeFrame >= 0`. -/
theorem Mean_timeFrame {α : Type} [Zero α] [Add α] [Div α] [NatCast α]
    (w : Watcher α) (now d : Int) (r : Result α) (tr : Trace)
    (hm : MeanT w now d = Except.ok (r, tr)) (hfold : 1 ≤ r.NuSamples) :
    (∃ newest last j, slot w.samples (w.index - 1) = some newest ∧
      tr.reads[r.NuSamples]? = some j ∧ slot w.samples j = some last ∧
      r.TimeFrame = Sub newest.Instant last.Instant ∧ r.TimeFrame ≤ d) ∧
    (∀ (N : Nat) (log : Option (Writer α)) (interval : Int) (l : List (Sample α)),
      pushAll (freshWatcher log interval N) l = Except.ok w →
      (l.map (fun s => s.Instant)).Pairwise (fun a b => a ≤ b) →
      (l.length < N → ∀ s, l.getLast? = some s → zeroTime ≤ s.Instant) →
      0 ≤ r.TimeFrame) := by
  have hmain : ∃ newest last j, slot w.samples (w.index - 1) = some newest ∧
      tr.reads[r.NuSamples]? = some j ∧ slot w.samples j = some last ∧
      r.TimeFrame = Sub newest.Instant last.Instant ∧ r.TimeFrame ≤ d ∧
      1 ≤ w.index := by
    rcases MeanT_cases w now d with ⟨_, h⟩ | ⟨_, e, he⟩ | ⟨hi, first, st, hfirst, hst⟩
    · rw [h] at hm
      cases hm
      simp [Result.zero] at hfold
    · rw [he now] at hm
      cases hm
    · rw [MeanT_eq w now d first st hi hfirst hst] at hm
      cases hm
      obtain ⟨-, hlast⟩ := meanLoop_last_fold_start w.samples d first.Instant
        (w.samples.length + 1) (w.index - 1) st hst
      obtain ⟨j, x, hj, hx, hl, hwin⟩ := hlast hfold
      refine ⟨first, x, j, hfirst, hj, hx, ?_, ?_, by omega⟩
      · show Sub first.Instant st.lastSample = _
        rw [hl]
      · show Sub first.Instant st.lastSample ≤ d
        rw [hl]
        exact hwin
  obtain ⟨newest, last, j, hnewest, hj, hlast, htf, hle, hidx⟩ := hmain
  refine ⟨⟨newest, last, j, hnewest, hj, hlast, htf, hle⟩, ?_⟩
  intro N log interval l hrun hts hpos
  obtain ⟨hkN, hs, hi⟩ := pushAll_fresh_inv N log interval l w hrun
  have hne : l ≠ [] := by
    intro h
    rw [h] at hi
    simp at hi
    omega
  obtain ⟨init, hinit⟩ : ∃ init, l = init ++ [l.getLast hne] :=
    ⟨l.dropLast, (List.dropLast_append_getLast hne).symm⟩
  have hnew : newest = l.getLast hne := by
    have h := slot_at w.samples init (List.replicate (N - l.length) Sample.zero)
      (l.getLast hne) (w.index - 1)
      (by rw [hs]; conv_lhs => rw [hinit]
          have := congrArg List.length hinit
          simp only [List.length_append, List.length_singleton] at this
          simp
          omega)
      (by rw [hi]
          have := congrArg List.length hinit
          simp only [List.length_append, List.length_singleton] at this
          omega)
    rw [hnewest] at h
    exact Option.some.inj h
  have hlastq : l.getLast? = some newest := by
    rw [hnew]
    exact List.getLast?_eq_getLast l hne
  have hmem : last ∈ l ++ List.replicate (N - l.length) Sample.zero := by
    rw [← hs]
    exact slot_mem w.samples j last hlast
  have hbound : last.Instant ≤ newest.Instant := by
    rcases List.mem_append.mp hmem with h | h
    · exact instant_le_last l newest hlastq hts last h
    · rw [List.eq_of_mem_replicate h]
      have hroom : l.length < N := by
        have := List.length_pos_of_mem h
        rw [List.length_replicate] at this
        omega
      exact hpos hroom newest hlastq
  rw [htf]
  exact Sub_nonneg _ _ hbound

theorem Mean_timeFrame_witness :
    ∃ w r, pushAll (freshWatcher none 1000000000 10) [reading 1, reading 2, reading 3] =
        Except.ok w ∧
      Mean w 63929347204000000000 3000000000 = Except.ok r ∧ 1 ≤ r.NuSamples ∧
      r.TimeFrame ≤ 3000000000 ∧ 0 ≤ r.TimeFrame := by
  obtain ⟨w, tr, hw, -, -, hm⟩ := Mean_after_pushes 10 none 1000000000
    [reading 1, reading 2, reading 3] (reading 3) 63929347204000000000 3000000000 rfl
    (by decide) (by decide) (fun _ _ => by decide)
  obtain ⟨⟨_, _, _, -, -, -, -, hle⟩, hpos⟩ := Mean_timeFrame w 63929347204000000000
    3000000000 _ tr hm (by decide)
  exact ⟨w, _, hw, Mean_of_MeanT w 63929347204000000000 3000000000 _ tr hm, by decide,
    hle, hpos 10 none 1000000000 [reading 1, reading 2, reading 3] hw (by decide)
      (fun _ s hs => by
        rw [show s = reading 3 from (Option.some.inj hs).symm]
        decide)⟩

/-- C18 (as stated, refuted): there is no not-yet-full buffer state (reached by fewer
pushes than the capacity into a fresh buffer) and no duration for which the walk
bounded by `nu >= cap(samples)` and the walk bounded by the lap check return
different results. -/
theorem Mean_lap_check_never_differs :
    ¬ ∃ (N : Nat) (log : Option (Writer ℚ)) (interval : Int) (l : List (Sample ℚ))
        (w : Watcher ℚ) (now d : Int),
      l.length < N ∧ pushAll (freshWatcher log interval N) l = Except.ok w ∧
        MeanLapT w now d ≠ MeanT w now d := by
  rintro ⟨N, log, interval, l, w, now, d, -, -, hne⟩
  exact hne (MeanLapT_eq_MeanT w now d)

/-- C18 (amended): for every Watcher state, full or not, and every duration, the walk
of `Mean` bounded by the count guard `nu >= cap(samples)` returns the same Result,
reads the same slots and evaluates the same divisions as the walk bounded by the
lap check that stops when the index is back at the starting slot; when the one
panics so does the other. -/
theorem Mean_lap_check_equivalent {α : Type} [Zero α] [Add α] [Div α] [NatCast α]
    (w : Watcher α) (now d : Int) :
    MeanLapT w now d = MeanT w now d ∧
    ∀ (samples : List (Sample α)) (start origin : Int) (fuel : Nat),
      0 ≤ origin → origin < samples.length →
      meanLoopLap samples d start origin fuel
          { sumA := 0, sumV := 0, sumW := 0, lastSample := zeroTime, nu := 0,
            i := origin, reads := [origin] } =
        meanLoop samples d start fuel
          { sumA := 0, sumV := 0, sumW := 0, lastSample := zeroTime, nu := 0,
            i := origin, reads := [origin] } := by
  refine ⟨MeanLapT_eq_MeanT w now d, ?_⟩
  intro samples start origin fuel h0 h1
  refine meanLoopLap_eq samples d start origin h0 h1 fuel _ ?_ ?_
  · simp only
    omega
  · simp only
    rw [if_pos]
    · simp
    · simpa using h0

/-- C19 (what the code does): from a fresh buffer of capacity `N` no run of
`addSample` calls brings the cursor back to 0. A returning run leaves the cursor at
the number of pushes, which is at most `N`; in the state that holds `N` written
samples the cursor is `N`, the next `addSample` panics, and `Mean` with a duration
that is not negative folds at least one sample. `Mean` returns the empty Result in
every state whose cursor is 0, and such a state is reached by no push. -/
theorem addSample_cursor_never_wraps {α : Type} [Zero α] [Add α] [Div α] [NatCast α]
    (N : Nat) (hN : 2 ≤ N) (log : Option (Writer α)) (interval : Int) :
    (∀ (l : List (Sample α)) (w : Watcher α),
      pushAll (freshWatcher log interval N) l = Except.ok w →
        w.index = l.length ∧ l.length ≤ N ∧ (w.index = 0 ↔ l = [])) ∧
    (∀ (l : List (Sample α)), l.length = N →
      ∃ w, pushAll (freshWatcher log interval N) l = Except.ok w ∧ w.index = N ∧
        (∀ s, addSample w s = Except.error Fault.indexOutOfRange) ∧
        ∀ now d, 0 ≤ d → ∃ r, Mean w now d = Except.ok r ∧ 1 ≤ r.NuSamples) ∧
    (∀ (w : Watcher α) (now d : Int), w.index = 0 →
      Mean w now d = Except.ok Result.zero) := by
  refine ⟨?_, ?_, ?_⟩
  · intro l w hrun
    obtain ⟨h1, -, h3⟩ := pushAll_fresh_inv N log interval l w hrun
    refine ⟨h3, h1, ?_⟩
    rw [h3]
    constructor
    · intro h
      exact List.length_eq_zero.mp (by omega)
    · intro h
      rw [h]
      rfl
  · intro l hl
    obtain ⟨w, hw, hs, hi⟩ := pushAll_fresh N log interval l (by omega)
    have hcap : w.samples.length = N := by rw [hs]; simp; omega
    refine ⟨w, hw, by rw [hi, hl], ?_, ?_⟩
    · intro s
      exact addSample_full w s (by rw [hi, hcap, hl])
    · intro now d hd
      obtain ⟨first, hfirst⟩ := slot_some w.samples (w.index - 1) (by omega) (by omega)
      obtain ⟨r, tr, hm, hnu, -⟩ := MeanT_folds_first w now d first (by omega) (by omega)
        hfirst hd
      exact ⟨r, Mean_of_MeanT w now d r tr hm, hnu⟩
  · intro w now d h
    have hi : w.index - 1 < 0 := by omega
    simp only [Mean, MeanT, if_pos hi]

theorem addSample_cursor_never_wraps_witness :
    ∃ w, pushAll (freshWatcher none 1000000000 2) [tick 1, tick 2] = Except.ok w ∧
      w.index = 2 ∧ addSample w (tick 3) = Except.error Fault.indexOutOfRange ∧
      ∃ r, Mean w 0 0 = Except.ok r ∧ 1 ≤ r.NuSamples := by
  obtain ⟨w, hw, hi, hpanic, hmean⟩ := (addSample_cursor_never_wraps 2 (by decide) none
    1000000000).2.1 [tick 1, tick 2] rfl
  exact ⟨w, hw, hi, hpanic (tick 3), hmean 0 0 (by decide)⟩

/-- C20: in every state reached from a fresh buffer of capacity `N >= 2` by a
non-empty run of returning `addSample` calls, and for every duration `d >= 0`,
`Mean(d)` returns and its first fold is the slot before the cursor, which holds the
sample pushed last: `NuSamples >= 1` and the three divisions are evaluated with that
divisor. The same holds in every state with the same cursor, capacity and newest
slot, whatever the other slots hold. -/
theorem Mean_folds_newest {α : Type} [Zero α] [Add α] [Div α] [NatCast α]
    (N : Nat) (hN : 2 ≤ N) (log : Option (Writer α)) (interval : Int)
    (l : List (Sample α)) (w : Watcher α) (newest : Sample α)
    (hrun : pushAll (freshWatcher log interval N) l = Except.ok w)
    (hlast : l.getLast? = some newest) (now d : Int) (hd : 0 ≤ d) :
    slot w.samples (w.index - 1) = some newest ∧
    ∀ w2 : Watcher α, w2.index = w.index → w2.samples.length = w.samples.length →
      slot w2.samples (w2.index - 1) = some newest →
      ∃ r tr, MeanT w2 now d = Except.ok (r, tr) ∧ 1 ≤ r.NuSamples ∧
        tr.divs = [r.NuSamples, r.NuSamples, r.NuSamples] ∧
        (∀ n ∈ tr.divs, 1 ≤ n) ∧ tr.reads[1]? = some (w.index - 1) := by
  obtain ⟨hkN, hs, hi⟩ := pushAll_fresh_inv N log interval l w hrun
  obtain ⟨init, hinit⟩ : ∃ init, l = init ++ [newest] := by
    rw [List.getLast?_eq_some_iff] at hlast
    exact hlast
  have hk : l.length = init.length + 1 := by rw [hinit]; simp
  have hcap : w.samples.length = N := by rw [hs]; simp; omega
  have hfirst : slot w.samples (w.index - 1) = some newest :=
    slot_at w.samples init (List.replicate (N - l.length) Sample.zero) newest _
      (by rw [hs, hinit]; simp) (by rw [hi, hk]; push_cast; omega)
  refine ⟨hfirst, ?_⟩
  intro w2 hidx hlen hslot
  obtain ⟨r, tr, hm, hnu, -, hdivs, hreads⟩ := MeanT_folds_first w2 now d newest
    (by omega) (by omega) hslot hd
  refine ⟨r, tr, hm, hnu, hdivs, ?_, by rw [← hidx]; exact hreads⟩
  intro n hn
  rw [hdivs] at hn
  simp only [List.mem_cons, List.mem_singleton, List.not_mem_nil, or_false, or_self] at hn
  omega

theorem Mean_folds_newest_witness :
    ∃ w r tr, pushAll (freshWatcher none 1000000000 10) [tick 1, tick 2] = Except.ok w ∧
      MeanT w 0 0 = Except.ok (r, tr) ∧ 1 ≤ r.NuSamples ∧ ∀ n ∈ tr.divs, 1 ≤ n := by
  obtain ⟨w, hw, -, -⟩ := pushAll_fresh 10 none 1000000000 [tick 1, tick 2] (by decide)
  obtain ⟨r, tr, hm, hnu, -, hdivs, -⟩ := (Mean_folds_newest 10 (by decide) none
    1000000000 [tick 1, tick 2] w (tick 2) hw rfl 0 0 (by decide)).2 w rfl rfl
    (Mean_folds_newest 10 (by decide) none 1000000000 [tick 1, tick 2] w (tick 2) hw rfl
      0 0 (by decide)).1
  exact ⟨w, r, tr, hw, hm, hnu, hdivs⟩

end Gopower
